import Mathlib

set_option maxHeartbeats 1000000

/-!
Verification development for `frescobaldi_app/viewmanager.py`.

The module manages a recursively splittable grid of editing panes
(`ViewSpace`s) inside a tree of Qt splitters; the root splitter is the
`ViewManager` itself.  We embed the state of one `ViewManager`:

* a `ViewSpace` ("pane") is identified by a `Nat`; the views it stacks are
  modelled as a list of `View`s (view id plus the id of the document the
  view shows), last = active, mirroring `ViewSpace.views`;
* the splitter tree below the root is a `Node` (pane leaf or sub-splitter
  with orientation, ordered children and per-child sizes); the root
  splitter's orientation/children/sizes are fields of the manager state;
* `_viewSpaces` is the recency list of pane ids (last = active);
* Qt's proportional-size machinery is abstracted as the stored `sizes`
  list of each splitter: `sizes()` reads it, `setSizes` replaces it, and a
  widget freshly inserted into a splitter gets the entry `defaultSize`
  (the pane geometry Qt would assign before the next layout pass).
Python `/` on ints (Python 2) floor-divides, hence `Int.fdiv` below.
-/

inductive Orient where
  | horizontal
  | vertical
deriving DecidableEq, Repr

/-- A view: its identity and the document it shows (`view.document()`). -/
structure View where
  vid : Nat
  doc : Nat
deriving DecidableEq, Repr

/-- A node of the splitter tree below the root: either a `ViewSpace` (pane)
or a sub-`QSplitter` with an orientation, ordered children and sizes. -/
inductive Node where
  | pane (id : Nat)
  | split (o : Orient) (children : List Node) (sizes : List Int)

/-- Size entry Qt assigns to a freshly inserted, not yet laid out widget. -/
def defaultSize : Int := 0

/-- Is this node the pane `p`? -/
def isPaneId (p : Nat) : Node → Bool
  | .pane q => q == p
  | .split _ _ _ => false

/-- Is this node a splitter having pane `p` as a direct child? -/
def hasDirectPane (p : Nat) : Node → Bool
  | .pane _ => false
  | .split _ cs _ => cs.any (isPaneId p)

/-- Is this node a splitter having pane `p` as a direct child and at most
two children (i.e. `splitter.count() > 2` fails for it)? -/
def hasDirectPaneLe2 (p : Nat) : Node → Bool
  | .pane _ => false
  | .split _ cs _ => cs.any (isPaneId p) && decide (cs.length ≤ 2)

mutual

/-- All pane ids in a subtree, in tree order. -/
def panesOf : Node → List Nat
  | .pane q => [q]
  | .split _ cs _ => panesOfList cs

/-- All pane ids below a list of siblings, in tree order. -/
def panesOfList : List Node → List Nat
  | [] => []
  | c :: cs => panesOf c ++ panesOfList cs

end

mutual

/-- Every splitter in this subtree has at least two children. -/
def nodeOK : Node → Bool
  | .pane _ => true
  | .split _ cs _ => decide (2 ≤ cs.length) && nodeListOK cs

def nodeListOK : List Node → Bool
  | [] => true
  | c :: cs => nodeOK c && nodeListOK cs

end

namespace ViewSpace

/-- `ViewSpace.document()`: the document of the last (active) view, if any. -/
def document (views : List View) : Option Nat :=
  (views.getLast?).map View.doc

/-- `ViewSpace.showDocument(doc)` acting on the view stack.

`doc` is `none` when the caller passes a `document()` of an empty pane
(`splitViewSpace` and the backfill loops do this); in the source that value
only ever reaches an empty pane, where the `doc is self.document()` guard
fires, so the `none`/non-empty fallthrough below is dead code.
`fresh` is the id of the view `doc.createView()` would return. -/
def showDocument (views : List View) (doc : Option Nat) (fresh : Nat) : List View :=
  if doc = document views then views
  else
    match doc with
    | none => views
    | some d =>
      match views.dropLast.find? (fun v => v.doc == d) with
      | some v => (views.erase v) ++ [v]
      | none => views ++ [⟨fresh, d⟩]

/-- `ViewSpace.removeDocument(doc)` acting on the view stack: remove (and
destroy) the first view showing `doc`, if any. -/
def removeDocument (views : List View) (doc : Nat) : List View :=
  match views.find? (fun v => v.doc == doc) with
  | some v => views.erase v
  | none => views

end ViewSpace

/-- The state of one `ViewManager`: the root splitter (the manager itself:
orientation, children, sizes), the recency list `_viewSpaces` (last =
active), the view stack of every live pane, fresh-id counters, and the
enabled state of the `window_close_view` action. -/
structure MState where
  rootO : Orient
  rootCs : List Node
  rootSz : List Int
  spaces : List Nat
  views : List (Nat × List View)
  nextPane : Nat
  nextView : Nat
  closeEnabled : Bool

/-- `ViewManager.__init__`: one fresh empty pane (id 0) as sole root child,
alone in the recency list; `window_close_view` starts disabled. -/
def initMState : MState :=
  { rootO := .horizontal
    rootCs := [.pane 0]
    rootSz := [defaultSize]
    spaces := [0]
    views := [(0, [])]
    nextPane := 1
    nextView := 0
    closeEnabled := false }

/-- The view stack of pane `p` (`space.views`). -/
def viewsOf (s : MState) (p : Nat) : List View :=
  match s.views.find? (fun kv => kv.1 == p) with
  | some kv => kv.2
  | none => []

/-- Replace (or add) the view stack recorded for pane `p`. -/
def setViewsAux (m : List (Nat × List View)) (p : Nat) (vs : List View) :
    List (Nat × List View) :=
  match m with
  | [] => [(p, vs)]
  | kv :: rest => if kv.1 = p then (p, vs) :: rest else kv :: setViewsAux rest p vs

/-- Drop pane `p`'s entry (the pane object is destroyed). -/
def eraseViewsAux (m : List (Nat × List View)) (p : Nat) : List (Nat × List View) :=
  m.filter (fun kv => kv.1 != p)

namespace ViewManager

/-- `ViewManager.activeViewSpace()` is `self._viewSpaces[-1]`; total stand-in
(the recency list is never empty in a reachable state). -/
def activeViewSpace (s : MState) : Nat :=
  s.spaces.getLastD 0

/-- `space.document()` of pane `p` of the manager. -/
def paneDocOf (s : MState) (p : Nat) : Option Nat :=
  ViewSpace.document (viewsOf s p)

/-- `ViewManager.setActiveViewSpace(space)`: no-op when already active, else
move `space` to the end of the recency list. -/
def setActiveViewSpace (s : MState) (p : Nat) : MState :=
  if s.spaces.getLast? = some p then s
  else { s with spaces := s.spaces.erase p ++ [p] }

/-- `ViewManager.canCloseViewSpace()`: `self.count() > 1` (root child count). -/
def canCloseViewSpace (s : MState) : Bool :=
  decide (1 < s.rootCs.length)

end ViewManager

/-- The placement rule of `ViewManager.splitViewSpace` applied at the
splitter that has pane `p` as a direct child, given that splitter's
orientation `so`, children `cs` and sizes `szs`; returns its new
orientation, children and sizes.

* `splitter.count() == 1`: take the requested orientation, append the new
  pane (its fresh size entry), then `setSizes([size/2, size/2])` with
  `size = sizes()[0]`;
* same orientation: `insertWidget(index+1, newspace)` (no `setSizes`, the
  new widget gets a fresh size entry);
* different orientation: a new splitter with the requested orientation and
  children `[pane, newspace]` replaces `pane` at its index (the source
  inserts the new splitter at `index`, reparents `pane` into it — which
  drops `pane`'s entry from the old splitter — and restores the captured
  sizes, so the old splitter's sizes are preserved); inside, after
  `addWidget(viewspace)` the single size entry is `defaultSize`, and
  `setSizes([size/2, size/2])` halves it. -/
def splitInChildren (p newId : Nat) (o : Orient) (so : Orient)
    (cs : List Node) (szs : List Int) : Orient × List Node × List Int :=
  if cs.length = 1 then
    (o, cs ++ [.pane newId],
      [((szs.headD 0).fdiv 2), ((szs.headD 0).fdiv 2)])
  else if so = o then
    let index := cs.findIdx (isPaneId p)
    (so, cs.insertIdx (index + 1) (.pane newId),
      szs.insertIdx (index + 1) defaultSize)
  else
    let index := cs.findIdx (isPaneId p)
    (so, cs.set index (.split o [.pane p, .pane newId]
        [defaultSize.fdiv 2, defaultSize.fdiv 2]),
      szs)

mutual

/-- Apply the split of pane `p` inside a subtree: rewrite the splitter that
has `p` as a direct child by `splitInChildren`; leave everything else. -/
def splitNode (p newId : Nat) (o : Orient) : Node → Node
  | .pane q => .pane q
  | .split so cs szs =>
    if cs.any (isPaneId p) then
      let r := splitInChildren p newId o so cs szs
      .split r.1 r.2.1 r.2.2
    else
      .split so (splitNodeList p newId o cs) szs

def splitNodeList (p newId : Nat) (o : Orient) : List Node → List Node
  | [] => []
  | c :: cs => splitNode p newId o c :: splitNodeList p newId o cs

end

/-- `ViewManager.splitViewSpace(viewspace, orientation)`.

The tree surgery happens at `viewspace.parentWidget()` — the root when
`viewspace` is a direct child of the manager, else the sub-splitter found
by `splitNode`.  Then the new pane is put at the FRONT of the recency list
(`self._viewSpaces.insert(0, newspace)`), shows `viewspace.document()`
(creating a view only when that is a document), and the `window_close_view`
action is re-enabled from `canCloseViewSpace()`.  (`newspace.activeView().
setFocus()` on an active source pane is a host-toolkit call and does not
itself mutate this module's state.) -/
def splitViewSpace (s : MState) (p : Nat) (o : Orient) : MState :=
  let newId := s.nextPane
  let r :=
    if s.rootCs.any (isPaneId p) then
      splitInChildren p newId o s.rootO s.rootCs s.rootSz
    else
      (s.rootO, splitNodeList p newId o s.rootCs, s.rootSz)
  { rootO := r.1
    rootCs := r.2.1
    rootSz := r.2.2
    spaces := newId :: s.spaces
    views := setViewsAux s.views newId
        (ViewSpace.showDocument [] (ViewManager.paneDocOf s p) s.nextView)
    nextPane := s.nextPane + 1
    nextView := s.nextView + 1
    closeEnabled := decide (1 < r.2.1.length) }

/-- `other = splitter.widget(1 - splitter.indexOf(viewspace))`: the sibling
of pane `p` inside its two-child parent splitter.  (Call sites guarantee
the node is a splitter with `p` a direct child; a Qt `widget()` call out of
range would return null, which never happens here.) -/
def siblingIn (p : Nat) : Node → Node
  | .split _ cs2 _ => cs2.getD (1 - cs2.findIdx (isPaneId p)) (.pane 0)
  | .pane _ => .pane 0

/-- Replace `p`'s parent splitter (sitting at index `gi` of `cs`) by the
sibling `other`: a pane replaces it in place (the grandparent's captured
sizes are restored unchanged), a splitter has its children and sizes
spliced in at index `gi` (`sizes[index:index+1] = other.sizes()`). -/
def spliceInto (cs : List Node) (szs : List Int) (gi : Nat) :
    Node → List Node × List Int
  | .pane q => (cs.set gi (.pane q), szs)
  | .split _ cs3 sz3 =>
    (cs.take gi ++ cs3 ++ cs.drop (gi + 1),
      szs.take gi ++ sz3 ++ szs.drop (gi + 1))

/-- Case C of `ViewManager.closeViewSpace` applied at the splitter (or the
root) whose child list `cs` contains the two-child sub-splitter holding
pane `p`: find that sub-splitter, take `p`'s sibling in it, and replace
the sub-splitter by the sibling's content. -/
def spliceCase (p : Nat) (cs : List Node) (szs : List Int) :
    List Node × List Int :=
  let gi := cs.findIdx (hasDirectPaneLe2 p)
  spliceInto cs szs gi (siblingIn p (cs.getD gi (.pane 0)))

mutual

/-- The tree surgery of `ViewManager.closeViewSpace` below the root.
At the splitter that has pane `p` as a direct child with more than two
children, just remove `p` (case A).  A splitter whose direct child holds
`p` with at most two children is rewritten by `spliceCase` (case C; the
callers only recurse here when `p`'s parent is not the root, and under the
structural invariant that parent then has exactly two children). -/
def closeNode (p : Nat) : Node → Node
  | .pane q => .pane q
  | .split o cs szs =>
    if cs.any (isPaneId p) then
      let index := cs.findIdx (isPaneId p)
      .split o (cs.eraseIdx index) (szs.eraseIdx index)
    else if cs.any (hasDirectPaneLe2 p) then
      let r := spliceCase p cs szs
      .split o r.1 r.2
    else
      .split o (closeNodeList p cs) szs

def closeNodeList (p : Nat) : List Node → List Node
  | [] => []
  | c :: cs => closeNode p c :: closeNodeList p cs

end

/-- The structural part of `ViewManager.closeViewSpace` after the
activation step: tree surgery, destruction of the closed pane's views,
removal from the recency list and recomputation of `window_close_view`.
Total; the early `if self.count() < 2: return` path leaves `s₁` untouched. -/
def closeTree (s₁ : MState) (p : Nat) : MState :=
  if s₁.rootCs.any (isPaneId p) then
    -- viewspace.parentWidget() is the root
    let index := s₁.rootCs.findIdx (isPaneId p)
    if 2 < s₁.rootCs.length then
      { s₁ with
        rootCs := s₁.rootCs.eraseIdx index
        rootSz := s₁.rootSz.eraseIdx index
        spaces := s₁.spaces.erase p
        views := eraseViewsAux s₁.views p
        closeEnabled := decide (1 < (s₁.rootCs.eraseIdx index).length) }
    else if s₁.rootCs.length < 2 then
      -- `if self.count() < 2: return` — nothing below runs
      s₁
    else
      match s₁.rootCs.getD (1 - index) (.pane 0) with
      | .pane q =>
        { s₁ with
          rootCs := [.pane q]
          rootSz := s₁.rootSz.eraseIdx index
          spaces := s₁.spaces.erase p
          views := eraseViewsAux s₁.views p
          closeEnabled := decide (1 < ([Node.pane q]).length) }
      | .split o2 cs2 sz2 =>
        { s₁ with
          rootO := o2
          rootCs := cs2
          rootSz := sz2
          spaces := s₁.spaces.erase p
          views := eraseViewsAux s₁.views p
          closeEnabled := decide (1 < cs2.length) }
  else
    let r :=
      if s₁.rootCs.any (hasDirectPaneLe2 p) then
        spliceCase p s₁.rootCs s₁.rootSz
      else
        (closeNodeList p s₁.rootCs, s₁.rootSz)
    { s₁ with
      rootCs := r.1
      rootSz := r.2
      spaces := s₁.spaces.erase p
      views := eraseViewsAux s₁.views p
      closeEnabled := decide (1 < r.1.length) }

/-- `ViewManager.closeViewSpace(viewspace)`; `none` models an uncaught
Python exception.

Before anything else the source reads `self._viewSpaces[-1]` (via
`activeViewSpace()`) and, when `viewspace` is active, activates
`self._viewSpaces[-2]` — an `IndexError` when fewer than two panes exist.
Then `closeTree` performs the surgery: case A (`splitter.count() > 2`)
removes the pane; at the root (`splitter is self`) either the guarded
early return (`self.count() < 2`) or case B (the sibling, or the sibling
splitter's children/orientation/sizes, become the root content); case C
otherwise. -/
def closeViewSpace (s : MState) (p : Nat) : Option MState :=
  match s.spaces.getLast? with
  | none => none
  | some a =>
    if a = p then
      match s.spaces.dropLast.getLast? with
      | none => none
      | some prev => some (closeTree (ViewManager.setActiveViewSpace s prev) p)
    else some (closeTree s p)

/-- A `for space in …: if not space.document(): space.showDocument(doc)`
loop over the pane ids `l`, threading the manager state (each shown
document may create a view, consuming a fresh view id). -/
def backfillEmpty (s : MState) (l : List Nat) (doc : Option Nat) : MState :=
  match l with
  | [] => s
  | q :: rest =>
    let s' :=
      if (ViewManager.paneDocOf s q).isNone then
        { s with
          views := setViewsAux s.views q
            (ViewSpace.showDocument (viewsOf s q) doc s.nextView)
          nextView := s.nextView + 1 }
      else s
    backfillEmpty s' rest doc

/-- `for space in self._viewSpaces: space.removeDocument(doc)`. -/
def removeDocAll (s : MState) (l : List Nat) (doc : Nat) : MState :=
  match l with
  | [] => s
  | q :: rest =>
    removeDocAll
      { s with
        views := setViewsAux s.views q
          (ViewSpace.removeDocument (viewsOf s q) doc) }
      rest doc

/-- `ViewManager.setCurrentDocument(doc, findOpenView)`: skip the active
pane's update when it already shows `doc`; else, with `findOpenView`,
search the other panes in reverse recency order (`self._viewSpaces[-2::-1]`)
for one already showing `doc` and activate it; else load `doc` into the
active pane.  Afterwards every non-active pane showing no document is also
given `doc` (the `self._viewSpaces[:-1]` loop); the final
`focusActiveView()` is a host-toolkit call. -/
def setCurrentDocument (s : MState) (doc : Nat) (findOpenView : Bool) : MState :=
  let a := ViewManager.activeViewSpace s
  let s₁ :=
    if some doc = ViewManager.paneDocOf s a then s
    else
      let found? :=
        if findOpenView then
          (s.spaces.dropLast.reverse).find?
            (fun q => decide (ViewManager.paneDocOf s q = some doc))
        else none
      match found? with
      | some q => ViewManager.setActiveViewSpace s q
      | none =>
        { s with
          views := setViewsAux s.views a
            (ViewSpace.showDocument (viewsOf s a) (some doc) s.nextView)
          nextView := s.nextView + 1 }
  backfillEmpty s₁ s₁.spaces.dropLast (some doc)

/-- `ViewManager.slotDocumentClosed(doc)`: capture the active pane's
document, remove `doc` from every pane; when `doc` is not the captured
active document (so no `setCurrentDocument` call will follow), fill the
non-active panes left empty with the captured active document. -/
def slotDocumentClosed (s : MState) (doc : Nat) : MState :=
  let activeDocument := ViewManager.paneDocOf s (ViewManager.activeViewSpace s)
  let s₁ := removeDocAll s s.spaces doc
  if some doc ≠ activeDocument then
    backfillEmpty s₁ s₁.spaces.dropLast activeDocument
  else s₁

/-- Manager states produced by a finite sequence of `splitViewSpace` and
`closeViewSpace` calls (on existing panes; a `closeViewSpace` call that
raises produces no state) starting from the freshly constructed manager. -/
inductive ReachSC : MState → Prop where
  | init : ReachSC initMState
  | split (s : MState) (p : Nat) (o : Orient) :
      ReachSC s → p ∈ s.spaces → ReachSC (splitViewSpace s p o)
  | close (s s' : MState) (p : Nat) :
      ReachSC s → p ∈ s.spaces → closeViewSpace s p = some s' → ReachSC s'

/-- Reachable manager states: every operation of the module (splits,
closes, focus-driven activation, document routing, document-closed
events) starting from the freshly constructed manager. -/
inductive Reach : MState → Prop where
  | init : Reach initMState
  | split (s : MState) (p : Nat) (o : Orient) :
      Reach s → p ∈ s.spaces → Reach (splitViewSpace s p o)
  | close (s s' : MState) (p : Nat) :
      Reach s → p ∈ s.spaces → closeViewSpace s p = some s' → Reach s'
  | setActive (s : MState) (p : Nat) :
      Reach s → p ∈ s.spaces → Reach (ViewManager.setActiveViewSpace s p)
  | setCurrent (s : MState) (doc : Nat) (fov : Bool) :
      Reach s → Reach (setCurrentDocument s doc fov)
  | docClosed (s : MState) (doc : Nat) :
      Reach s → Reach (slotDocumentClosed s doc)

/-- A concrete run for `slotDocumentClosed`: pane 0 (active) stacks
documents 20 and 10 (active document 10), pane 1 shows only document 20. -/
def c6state : MState :=
  setCurrentDocument
    (splitViewSpace (setCurrentDocument initMState 20 false) 0
      Orient.horizontal) 10 false

/-- A concrete run for `setCurrentDocument(..., findOpenView)`: the active
pane 1 is empty (its only document was closed) while pane 0 shows
document 2. -/
def c9state : MState :=
  slotDocumentClosed
    (ViewManager.setActiveViewSpace
      (setCurrentDocument
        (splitViewSpace (setCurrentDocument initMState 1 false) 0
          Orient.horizontal) 2 false) 1) 1

mutual

/-- The nesting depth of pane `p` below this node: `some 0` when the node
is the pane itself, one more than its depth inside a sub-splitter, `none`
when the pane does not occur (first occurrence counts). -/
def depthInNode (p : Nat) : Node → Option Nat
  | .pane q => if q = p then some 0 else none
  | .split _ cs _ => (depthInList p cs).map (fun d => d + 1)

/-- The nesting depth of pane `p` below the first of these siblings that
contains it (0 = the pane is one of the siblings itself). -/
def depthInList (p : Nat) : List Node → Option Nat
  | [] => none
  | c :: cs =>
    match depthInNode p c with
    | some d => some d
    | none => depthInList p cs

end

/-- The nesting depth of pane `p` in the manager: 0 for a direct child of
the root splitter, one more per enclosing sub-splitter. -/
def depthOf (s : MState) (p : Nat) : Option Nat :=
  depthInList p s.rootCs

mutual

/-- The sub-splitter of this subtree that has pane `p` as a direct child
(`pane.parentWidget()`): its orientation, children and sizes. -/
def parentIn (p : Nat) : Node → Option (Orient × List Node × List Int)
  | .pane _ => none
  | .split so cs szs =>
    if cs.any (isPaneId p) then some (so, cs, szs) else parentInList p cs

def parentInList (p : Nat) : List Node → Option (Orient × List Node × List Int)
  | [] => none
  | c :: cs =>
    match parentIn p c with
    | some r => some r
    | none => parentInList p cs

end

/-- `pane.parentWidget()` in the manager: the root splitter itself
(orientation, children, sizes of the manager) when the pane is a direct
child of the manager, else the sub-splitter holding it. -/
def parentOf (s : MState) (p : Nat) : Option (Orient × List Node × List Int) :=
  if s.rootCs.any (isPaneId p) then some (s.rootO, s.rootCs, s.rootSz)
  else parentInList p s.rootCs

/-- The structural invariant of a manager state: a non-empty root whose
sub-splitters all have at least two children, a single-child root holding a
bare pane, pairwise distinct pane ids matching the recency list, and
freshness of the pane-id counter. -/
structure MInv (s : MState) : Prop where
  rootLen : 1 ≤ s.rootCs.length
  rootOK : nodeListOK s.rootCs = true
  rootSingle : s.rootCs.length = 1 → ∃ q, s.rootCs = [Node.pane q]
  nodup : (panesOfList s.rootCs).Nodup
  perm : s.spaces.Perm (panesOfList s.rootCs)
  fresh : ∀ q ∈ panesOfList s.rootCs, q < s.nextPane
  vfresh : ∀ kv ∈ s.views, kv.1 < s.nextPane

theorem isPaneId_iff {p : Nat} {n : Node} : isPaneId p n = true ↔ n = Node.pane p := by
  cases n <;> simp [isPaneId]

theorem any_isPaneId_iff {p : Nat} {cs : List Node} :
    cs.any (isPaneId p) = true ↔ Node.pane p ∈ cs := by
  simp only [List.any_eq_true, isPaneId_iff]
  constructor
  · rintro ⟨c, hc, rfl⟩; exact hc
  · intro h; exact ⟨_, h, rfl⟩

theorem panesOfList_append (l₁ l₂ : List Node) :
    panesOfList (l₁ ++ l₂) = panesOfList l₁ ++ panesOfList l₂ := by
  induction l₁ with
  | nil => rfl
  | cons c cs ih => simp [panesOfList, ih]

theorem mem_panesOfList {q : Nat} {cs : List Node} :
    q ∈ panesOfList cs ↔ ∃ c ∈ cs, q ∈ panesOf c := by
  induction cs with
  | nil => simp [panesOfList]
  | cons c cs ih => simp [panesOfList, ih]

theorem mem_panes_of_pane_mem {p : Nat} {cs : List Node} (h : Node.pane p ∈ cs) :
    p ∈ panesOfList cs :=
  mem_panesOfList.mpr ⟨_, h, by simp [panesOf]⟩

theorem hasDirectPane_mem {p : Nat} {c : Node} (h : hasDirectPane p c = true) :
    p ∈ panesOf c := by
  cases c with
  | pane q => simp [hasDirectPane] at h
  | split o cs szs =>
    simp only [hasDirectPane] at h
    exact mem_panes_of_pane_mem (any_isPaneId_iff.mp h)

theorem hasDirectPaneLe2_mem {p : Nat} {c : Node} (h : hasDirectPaneLe2 p c = true) :
    p ∈ panesOf c := by
  cases c with
  | pane q => simp [hasDirectPaneLe2] at h
  | split o cs szs =>
    simp only [hasDirectPaneLe2, Bool.and_eq_true] at h
    exact mem_panes_of_pane_mem (any_isPaneId_iff.mp h.1)

theorem nodeListOK_iff {cs : List Node} :
    nodeListOK cs = true ↔ ∀ c ∈ cs, nodeOK c = true := by
  induction cs with
  | nil => simp [nodeListOK]
  | cons c cs ih => simp [nodeListOK, ih]

mutual

theorem panesOf_ne_nil : ∀ n : Node, nodeOK n = true → panesOf n ≠ []
  | .pane q, _ => by simp [panesOf]
  | .split o cs szs, h => by
    simp only [nodeOK, Bool.and_eq_true, decide_eq_true_eq] at h
    have hne : cs ≠ [] := by
      intro hcs; rw [hcs] at h; simp at h
    simpa [panesOf] using panesOfList_ne_nil cs hne h.2

theorem panesOfList_ne_nil : ∀ cs : List Node, cs ≠ [] → nodeListOK cs = true →
    panesOfList cs ≠ []
  | [], h, _ => absurd rfl h
  | c :: cs, _, h => by
    simp only [nodeListOK, Bool.and_eq_true] at h
    simp only [panesOfList, ne_eq, List.append_eq_nil]
    intro ⟨h1, _⟩
    exact panesOf_ne_nil c h.1 h1

end

mutual

theorem splitNode_of_not_mem {p newId : Nat} {o : Orient} :
    ∀ n : Node, p ∉ panesOf n → splitNode p newId o n = n
  | .pane q, _ => rfl
  | .split so cs szs, h => by
    have hany : cs.any (isPaneId p) = false := by
      rw [Bool.eq_false_iff]
      intro hc
      exact h (by simpa [panesOf] using mem_panes_of_pane_mem (any_isPaneId_iff.mp hc))
    simp only [splitNode, hany, Bool.false_eq_true, if_false]
    rw [splitNodeList_of_not_mem cs (by simpa [panesOf] using h)]

theorem splitNodeList_of_not_mem {p newId : Nat} {o : Orient} :
    ∀ cs : List Node, p ∉ panesOfList cs → splitNodeList p newId o cs = cs
  | [], _ => rfl
  | c :: cs, h => by
    simp only [panesOfList, List.mem_append] at h
    push_neg at h
    simp only [splitNodeList]
    rw [splitNode_of_not_mem c h.1, splitNodeList_of_not_mem cs h.2]

end

mutual

theorem closeNode_of_not_mem {p : Nat} :
    ∀ n : Node, p ∉ panesOf n → closeNode p n = n
  | .pane q, _ => rfl
  | .split o cs szs, h => by
    have h' : p ∉ panesOfList cs := by simpa [panesOf] using h
    have hany : cs.any (isPaneId p) = false := by
      rw [Bool.eq_false_iff]
      intro hc
      exact h' (mem_panes_of_pane_mem (any_isPaneId_iff.mp hc))
    have hany2 : cs.any (hasDirectPaneLe2 p) = false := by
      rw [Bool.eq_false_iff]
      intro hc
      obtain ⟨c, hcmem, hc2⟩ := List.any_eq_true.mp hc
      exact h' (mem_panesOfList.mpr ⟨c, hcmem, hasDirectPaneLe2_mem hc2⟩)
    simp only [closeNode, hany, hany2, Bool.false_eq_true, if_false]
    rw [closeNodeList_of_not_mem cs h']

theorem closeNodeList_of_not_mem {p : Nat} :
    ∀ cs : List Node, p ∉ panesOfList cs → closeNodeList p cs = cs
  | [], _ => rfl
  | c :: cs, h => by
    simp only [panesOfList, List.mem_append] at h
    push_neg at h
    simp only [closeNodeList]
    rw [closeNode_of_not_mem c h.1, closeNodeList_of_not_mem cs h.2]

end

theorem any_decomp {α : Type} {pred : α → Bool} :
    ∀ {cs : List α}, cs.any pred = true →
    ∃ A c B, cs = A ++ c :: B ∧ pred c = true ∧ (∀ a ∈ A, pred a = false) ∧
      cs.findIdx pred = A.length := by
  intro cs h
  induction cs with
  | nil => simp at h
  | cons c cs ih =>
    by_cases hc : pred c = true
    · exact ⟨[], c, cs, rfl, hc, by simp, by simp [List.findIdx_cons, hc]⟩
    · rw [Bool.not_eq_true] at hc
      have h' : cs.any pred = true := by
        simpa [List.any_cons, hc] using h
      obtain ⟨A, d, B, h1, h2, h3, h4⟩ := ih h'
      refine ⟨c :: A, d, B, by simp [h1], h2, ?_, ?_⟩
      · intro a ha
        rcases List.mem_cons.mp ha with rfl | ha
        · exact hc
        · exact h3 a ha
      · simp [List.findIdx_cons, hc, h4]

theorem insertIdx_append_cons {α : Type} (A : List α) (c x : α) (B : List α) :
    (A ++ c :: B).insertIdx (A.length + 1) x = A ++ c :: x :: B := by
  induction A with
  | nil => rfl
  | cons a A ih => simp [List.insertIdx_succ_cons, ih]

theorem eraseIdx_append_cons {α : Type} (A : List α) (c : α) (B : List α) :
    (A ++ c :: B).eraseIdx A.length = A ++ B := by
  induction A with
  | nil => rfl
  | cons a A ih => simp [List.eraseIdx, ih]

theorem set_append_cons {α : Type} (A : List α) (c x : α) (B : List α) :
    (A ++ c :: B).set A.length x = A ++ x :: B := by
  induction A with
  | nil => rfl
  | cons a A ih => simp [List.set, ih]

theorem getD_append_cons {α : Type} (A : List α) (c : α) (B : List α) (d : α) :
    (A ++ c :: B).getD A.length d = c := by
  induction A with
  | nil => rfl
  | cons a A ih => simpa [List.getD] using ih

theorem take_append_cons {α : Type} (A : List α) (c : α) (B : List α) :
    (A ++ c :: B).take A.length = A := by
  induction A with
  | nil => rfl
  | cons a A ih => simp [List.take, ih]

theorem drop_append_cons {α : Type} (A : List α) (c : α) (B : List α) :
    (A ++ c :: B).drop (A.length + 1) = B := by
  induction A with
  | nil => rfl
  | cons a A ih => simp only [List.cons_append, List.length_cons, List.drop_succ_cons] at ih ⊢; exact ih

theorem mem_setViewsAux {kv : Nat × List View} :
    ∀ {m : List (Nat × List View)} {p : Nat} {vs : List View},
    kv ∈ setViewsAux m p vs → kv.1 = p ∨ kv ∈ m := by
  intro m
  induction m with
  | nil =>
    intro p vs h
    simp only [setViewsAux, List.mem_singleton] at h
    subst h; exact Or.inl rfl
  | cons kv' m ih =>
    intro p vs h
    simp only [setViewsAux] at h
    split at h
    · rcases List.mem_cons.mp h with rfl | h
      · exact Or.inl rfl
      · exact Or.inr (List.mem_cons_of_mem _ h)
    · rcases List.mem_cons.mp h with rfl | h
      · exact Or.inr (List.mem_cons_self _ _)
      · rcases ih h with h | h
        · exact Or.inl h
        · exact Or.inr (List.mem_cons_of_mem _ h)

theorem perm_insert_after (pA pB : List Nat) (p newId : Nat) :
    (pA ++ p :: newId :: pB).Perm (newId :: (pA ++ p :: pB)) := by
  have h2 : (pA ++ p :: newId :: pB).Perm (pA ++ newId :: p :: pB) :=
    List.Perm.append_left pA (List.Perm.swap newId p pB)
  have h1 : (pA ++ newId :: (p :: pB)).Perm (newId :: (pA ++ p :: pB)) :=
    List.perm_middle
  exact h2.trans h1

theorem length_splitNodeList {p newId : Nat} {o : Orient} :
    ∀ cs : List Node, (splitNodeList p newId o cs).length = cs.length
  | [] => rfl
  | c :: cs => by simp [splitNodeList, length_splitNodeList cs]

/-- `splitInChildren` only ever adds the new pane id to the sibling list. -/
theorem panesOfList_splitInChildren {p newId : Nat} {o so : Orient}
    {cs : List Node} {szs : List Int} (hmem : Node.pane p ∈ cs) :
    (panesOfList (splitInChildren p newId o so cs szs).2.1).Perm
      (newId :: panesOfList cs) := by
  have hany : cs.any (isPaneId p) = true := any_isPaneId_iff.mpr hmem
  by_cases h1 : cs.length = 1
  · obtain ⟨c, rfl⟩ : ∃ c, cs = [c] := by
      cases cs with
      | nil => simp at h1
      | cons c cs =>
        cases cs with
        | nil => exact ⟨c, rfl⟩
        | cons d cs => simp at h1
    have hc : c = Node.pane p := (List.mem_singleton.mp hmem).symm
    subst hc
    simp only [splitInChildren, if_pos rfl, panesOfList_append, panesOfList,
      panesOf, List.append_nil, List.nil_append]
    exact List.Perm.swap newId p []
  · obtain ⟨A, c, B, hdec, hc, _, hidx⟩ := any_decomp hany
    have hc' : c = Node.pane p := isPaneId_iff.mp hc
    subst hc'
    subst hdec
    by_cases hso : so = o
    · simp only [splitInChildren, if_neg h1, if_pos hso, hidx,
        insertIdx_append_cons, panesOfList_append, panesOfList, panesOf]
      exact perm_insert_after (panesOfList A) (panesOfList B) p newId
    · simp only [splitInChildren, if_neg h1, if_neg hso, hidx,
        set_append_cons, panesOfList_append, panesOfList, panesOf,
        List.append_nil]
      exact perm_insert_after (panesOfList A) (panesOfList B) p newId

/-- What one `splitViewSpace` placement step does to the children of the
splitter that directly holds the pane: the children stay well-formed and
there are at least two of them afterwards. -/
theorem splitInChildren_props {p newId : Nat} {o so : Orient} {cs : List Node}
    {szs : List Int} (hmem : Node.pane p ∈ cs) (hOK : nodeListOK cs = true) :
    nodeListOK (splitInChildren p newId o so cs szs).2.1 = true ∧
    2 ≤ (splitInChildren p newId o so cs szs).2.1.length := by
  have hany : cs.any (isPaneId p) = true := any_isPaneId_iff.mpr hmem
  have hOK' := nodeListOK_iff.mp hOK
  by_cases h1 : cs.length = 1
  · obtain ⟨c, rfl⟩ : ∃ c, cs = [c] := by
      cases cs with
      | nil => simp at h1
      | cons c cs =>
        cases cs with
        | nil => exact ⟨c, rfl⟩
        | cons d cs => simp at h1
    have hc : c = Node.pane p := (List.mem_singleton.mp hmem).symm
    subst hc
    refine ⟨?_, ?_⟩ <;> simp [splitInChildren, nodeListOK, nodeOK]
  · obtain ⟨A, c, B, hdec, hc, _, hidx⟩ := any_decomp hany
    have hc' : c = Node.pane p := isPaneId_iff.mp hc
    subst hc'
    subst hdec
    have hlen2 : 2 ≤ (A ++ Node.pane p :: B).length := by
      have hpos : 0 < (A ++ Node.pane p :: B).length := by simp
      omega
    by_cases hso : so = o
    · refine ⟨?_, ?_⟩ <;>
        simp only [splitInChildren, if_neg h1, if_pos hso, hidx,
          insertIdx_append_cons]
      · rw [nodeListOK_iff]
        intro d hd
        simp only [List.mem_append, List.mem_cons] at hd
        rcases hd with hd | hd | hd | hd
        · exact hOK' d (by simp [hd])
        · subst hd; rfl
        · subst hd; rfl
        · exact hOK' d (by simp [hd])
      · simp only [List.length_append, List.length_cons]
        simp only [List.length_append, List.length_cons] at hlen2
        omega
    · refine ⟨?_, ?_⟩ <;>
        simp only [splitInChildren, if_neg h1, if_neg hso, hidx,
          set_append_cons]
      · rw [nodeListOK_iff]
        intro d hd
        simp only [List.mem_append, List.mem_cons] at hd
        rcases hd with hd | hd | hd
        · exact hOK' d (by simp [hd])
        · subst hd; simp [nodeOK, nodeListOK]
        · exact hOK' d (by simp [hd])
      · simp only [List.length_append, List.length_cons]
        simp only [List.length_append, List.length_cons] at hlen2
        omega

mutual

theorem nodeOK_splitNode {p newId : Nat} {o : Orient} : ∀ n : Node,
    nodeOK n = true → nodeOK (splitNode p newId o n) = true
  | .pane q, _ => by simp [splitNode, nodeOK]
  | .split so cs szs, h => by
    simp only [nodeOK, Bool.and_eq_true, decide_eq_true_eq] at h
    by_cases hany : cs.any (isPaneId p) = true
    · have hmem := any_isPaneId_iff.mp hany
      obtain ⟨hOK, hlen⟩ :=
        @splitInChildren_props p newId o so cs szs hmem h.2
      simp only [splitNode, hany, if_true, nodeOK, Bool.and_eq_true,
        decide_eq_true_eq]
      exact ⟨hlen, hOK⟩
    · rw [Bool.not_eq_true] at hany
      simp only [splitNode, hany, Bool.false_eq_true, if_false, nodeOK,
        Bool.and_eq_true, decide_eq_true_eq, length_splitNodeList]
      exact ⟨h.1, nodeListOK_splitNodeList cs h.2⟩

theorem nodeListOK_splitNodeList {p newId : Nat} {o : Orient} : ∀ cs : List Node,
    nodeListOK cs = true → nodeListOK (splitNodeList p newId o cs) = true
  | [], _ => rfl
  | c :: cs, h => by
    simp only [nodeListOK, Bool.and_eq_true] at h ⊢
    exact ⟨nodeOK_splitNode c h.1, nodeListOK_splitNodeList cs h.2⟩

end

mutual

theorem panesOf_splitNode {p newId : Nat} {o : Orient} : ∀ n : Node,
    isPaneId p n = false → p ∈ panesOf n → (panesOf n).Nodup →
    (panesOf (splitNode p newId o n)).Perm (newId :: panesOf n)
  | .pane q, hpane, hmem, _ => by
    simp only [panesOf, List.mem_singleton] at hmem
    subst hmem
    simp [isPaneId] at hpane
  | .split so cs szs, _, hmem, hnd => by
    simp only [panesOf] at hmem hnd ⊢
    by_cases hany : cs.any (isPaneId p) = true
    · simp only [splitNode, hany, if_true, panesOf]
      exact panesOfList_splitInChildren (any_isPaneId_iff.mp hany)
    · rw [Bool.not_eq_true] at hany
      simp only [splitNode, hany, Bool.false_eq_true, if_false, panesOf]
      exact panesOfList_splitNodeList_perm cs hany hmem hnd

theorem panesOfList_splitNodeList_perm {p newId : Nat} {o : Orient} :
    ∀ cs : List Node, cs.any (isPaneId p) = false → p ∈ panesOfList cs →
    (panesOfList cs).Nodup →
    (panesOfList (splitNodeList p newId o cs)).Perm (newId :: panesOfList cs)
  | [], _, hmem, _ => by simp [panesOfList] at hmem
  | c :: cs, hany, hmem, hnd => by
    simp only [List.any_cons, Bool.or_eq_false_iff] at hany
    simp only [panesOfList, List.mem_append] at hmem
    simp only [panesOfList] at hnd ⊢
    obtain ⟨nd1, nd2, disj⟩ := List.nodup_append.mp hnd
    rcases hmem with hmem | hmem
    · have hnot : p ∉ panesOfList cs := fun hp => disj hmem hp
      rw [splitNodeList_of_not_mem cs hnot]
      exact List.Perm.append_right (panesOfList cs)
        (panesOf_splitNode c hany.1 hmem nd1)
    · have hnot : p ∉ panesOf c := fun hp => disj hp hmem
      rw [splitNode_of_not_mem c hnot]
      have ih := @panesOfList_splitNodeList_perm p newId o cs hany.2 hmem nd2
      exact (List.Perm.append_left (panesOf c) ih).trans List.perm_middle

end

theorem splitViewSpace_spaces (s : MState) (p : Nat) (o : Orient) :
    (splitViewSpace s p o).spaces = s.nextPane :: s.spaces := rfl

theorem splitViewSpace_nextPane (s : MState) (p : Nat) (o : Orient) :
    (splitViewSpace s p o).nextPane = s.nextPane + 1 := rfl

theorem splitViewSpace_rootCs (s : MState) (p : Nat) (o : Orient) :
    (splitViewSpace s p o).rootCs =
      if s.rootCs.any (isPaneId p) = true then
        (splitInChildren p s.nextPane o s.rootO s.rootCs s.rootSz).2.1
      else splitNodeList p s.nextPane o s.rootCs := by
  simp only [splitViewSpace]
  split <;> rfl

theorem splitViewSpace_views (s : MState) (p : Nat) (o : Orient) :
    (splitViewSpace s p o).views =
      setViewsAux s.views s.nextPane
        (ViewSpace.showDocument [] (ViewManager.paneDocOf s p) s.nextView) := rfl

/-- `splitViewSpace` on an existing pane preserves the manager invariant. -/
theorem MInv_splitViewSpace {s : MState} (hs : MInv s) {p : Nat}
    (hp : p ∈ s.spaces) (o : Orient) : MInv (splitViewSpace s p o) := by
  have hmem : p ∈ panesOfList s.rootCs := hs.perm.mem_iff.mp hp
  have hnew : s.nextPane ∉ panesOfList s.rootCs := fun h =>
    absurd (hs.fresh _ h) (lt_irrefl _)
  have hperm : (panesOfList (splitViewSpace s p o).rootCs).Perm
      (s.nextPane :: panesOfList s.rootCs) := by
    rw [splitViewSpace_rootCs]
    by_cases hany : s.rootCs.any (isPaneId p) = true
    · rw [if_pos hany]
      exact panesOfList_splitInChildren (any_isPaneId_iff.mp hany)
    · rw [if_neg hany]
      exact panesOfList_splitNodeList_perm s.rootCs (Bool.not_eq_true _ ▸ eq_false_of_ne_true hany) hmem hs.nodup
  have hOK : nodeListOK (splitViewSpace s p o).rootCs = true := by
    rw [splitViewSpace_rootCs]
    by_cases hany : s.rootCs.any (isPaneId p) = true
    · rw [if_pos hany]
      exact (@splitInChildren_props p s.nextPane o s.rootO s.rootCs s.rootSz (any_isPaneId_iff.mp hany) hs.rootOK).1
    · rw [if_neg hany]
      exact nodeListOK_splitNodeList s.rootCs hs.rootOK
  have hlen : 1 ≤ (splitViewSpace s p o).rootCs.length := by
    rw [splitViewSpace_rootCs]
    by_cases hany : s.rootCs.any (isPaneId p) = true
    · rw [if_pos hany]
      have := (@splitInChildren_props p s.nextPane o s.rootO s.rootCs s.rootSz
        (any_isPaneId_iff.mp hany) hs.rootOK).2
      omega
    · rw [if_neg hany]
      rw [length_splitNodeList]
      exact hs.rootLen
  have hsingle : (splitViewSpace s p o).rootCs.length = 1 →
      ∃ q, (splitViewSpace s p o).rootCs = [Node.pane q] := by
    intro h1
    rw [splitViewSpace_rootCs] at h1 ⊢
    by_cases hany : s.rootCs.any (isPaneId p) = true
    · rw [if_pos hany] at h1
      have := (@splitInChildren_props p s.nextPane o s.rootO s.rootCs s.rootSz
        (any_isPaneId_iff.mp hany) hs.rootOK).2
      omega
    · rw [if_neg hany] at h1
      exfalso
      rw [length_splitNodeList] at h1
      obtain ⟨q, hq⟩ := hs.rootSingle h1
      have : p = q := by
        rw [hq] at hmem
        simpa [panesOfList, panesOf] using hmem
      subst this
      rw [hq] at hany
      simp [isPaneId] at hany
  refine ⟨hlen, hOK, hsingle, ?_, ?_, ?_, ?_⟩
  · exact hperm.symm.nodup (List.Nodup.cons hnew hs.nodup)
  · rw [splitViewSpace_spaces]
    exact (List.Perm.cons s.nextPane hs.perm).trans hperm.symm
  · intro q hq
    rw [splitViewSpace_nextPane]
    rcases List.mem_cons.mp (hperm.mem_iff.mp hq) with rfl | hq'
    · omega
    · have := hs.fresh q hq'
      omega
  · intro kv hkv
    rw [splitViewSpace_nextPane]
    rw [splitViewSpace_views] at hkv
    rcases mem_setViewsAux hkv with h | h
    · omega
    · have := hs.vfresh kv h
      omega

theorem length_closeNodeList {p : Nat} :
    ∀ cs : List Node, (closeNodeList p cs).length = cs.length
  | [] => rfl
  | c :: cs => by simp [closeNodeList, length_closeNodeList cs]

theorem perm_cons_out (p : Nat) (X Y : List Nat) :
    (p :: (X ++ Y)).Perm (X ++ p :: Y) :=
  List.perm_middle.symm

/-- What case C of `closeViewSpace` does at the splitter containing `p`'s
two-child parent: the children stay well-formed, their number does not
decrease, and exactly the pane id `p` disappears. -/
theorem spliceCase_props {p : Nat} {cs : List Node} {szs : List Int}
    (hany2 : cs.any (hasDirectPaneLe2 p) = true) (hOK : nodeListOK cs = true) :
    nodeListOK (spliceCase p cs szs).1 = true ∧
    cs.length ≤ (spliceCase p cs szs).1.length ∧
    (p :: panesOfList (spliceCase p cs szs).1).Perm (panesOfList cs) := by
  obtain ⟨A, S, B, hdec, hS, _, hidx⟩ := any_decomp hany2
  subst hdec
  have hOK' := nodeListOK_iff.mp hOK
  cases S with
  | pane q => simp [hasDirectPaneLe2] at hS
  | split o2 cs2 sz2 =>
    simp only [hasDirectPaneLe2, Bool.and_eq_true, decide_eq_true_eq] at hS
    obtain ⟨hany, hle2⟩ := hS
    have hSOK : nodeOK (Node.split o2 cs2 sz2) = true := hOK' _ (by simp)
    simp only [nodeOK, Bool.and_eq_true, decide_eq_true_eq] at hSOK
    obtain ⟨hge2, hcs2OK⟩ := hSOK
    have hcs2OK' := nodeListOK_iff.mp hcs2OK
    have hlen2 : cs2.length = 2 := le_antisymm hle2 hge2
    obtain ⟨c1, c2, rfl⟩ : ∃ c1 c2, cs2 = [c1, c2] := by
      match cs2, hlen2 with
      | [c1, c2], _ => exact ⟨c1, c2, rfl⟩
    have hgetS : (A ++ Node.split o2 [c1, c2] sz2 :: B).getD A.length (Node.pane 0)
        = Node.split o2 [c1, c2] sz2 := getD_append_cons A _ B _
    have hsplice : spliceCase p (A ++ Node.split o2 [c1, c2] sz2 :: B) szs
        = spliceInto (A ++ Node.split o2 [c1, c2] sz2 :: B) szs A.length
            (siblingIn p (Node.split o2 [c1, c2] sz2)) := by
      rw [spliceCase, hidx, hgetS]
    by_cases h1 : isPaneId p c1 = true
    · -- p is the first child; the sibling is `c2`
      have hc1 : c1 = Node.pane p := isPaneId_iff.mp h1
      subst hc1
      have hsib : siblingIn p (Node.split o2 [Node.pane p, c2] sz2) = c2 := by
        simp [siblingIn, List.findIdx_cons, h1]
      rw [hsib] at hsplice
      cases c2 with
      | pane q =>
        rw [hsplice]
        simp only [spliceInto, set_append_cons]
        refine ⟨?_, ?_, ?_⟩
        · rw [nodeListOK_iff]
          intro d hd
          simp only [List.mem_append, List.mem_cons] at hd
          rcases hd with hd | hd | hd
          · exact hOK' d (by simp [hd])
          · subst hd; rfl
          · exact hOK' d (by simp [hd])
        · simp
        · simp only [panesOfList_append, panesOfList, panesOf]
          simpa using perm_cons_out p (panesOfList A) (q :: panesOfList B)
      | split o3 cs3 sz3 =>
        have h3OK : nodeOK (Node.split o3 cs3 sz3) = true := hcs2OK' _ (by simp)
        simp only [nodeOK, Bool.and_eq_true, decide_eq_true_eq] at h3OK
        rw [hsplice]
        simp only [spliceInto, take_append_cons, drop_append_cons]
        refine ⟨?_, ?_, ?_⟩
        · rw [nodeListOK_iff]
          intro d hd
          simp only [List.mem_append] at hd
          rcases hd with (hd | hd) | hd
          · exact hOK' d (by simp [hd])
          · exact nodeListOK_iff.mp h3OK.2 d hd
          · exact hOK' d (by simp [hd])
        · have := h3OK.1
          simp only [List.length_append, List.length_cons]
          omega
        · simp only [panesOfList_append, panesOfList, panesOf, List.append_assoc]
          simpa [List.append_assoc] using
            perm_cons_out p (panesOfList A) (panesOfList cs3 ++ panesOfList B)
    · -- p is the second child; the sibling is `c1`
      have h2 : isPaneId p c2 = true := by
        rcases List.any_eq_true.mp hany with ⟨d, hd, hdp⟩
        rcases List.mem_cons.mp hd with rfl | hd
        · exact absurd hdp h1
        · rcases List.mem_singleton.mp hd with rfl
          exact hdp
      have hc2 : c2 = Node.pane p := isPaneId_iff.mp h2
      subst hc2
      rw [Bool.not_eq_true] at h1
      have hsib : siblingIn p (Node.split o2 [c1, Node.pane p] sz2) = c1 := by
        simp [siblingIn, List.findIdx_cons, h1, h2]
      rw [hsib] at hsplice
      cases c1 with
      | pane q =>
        rw [hsplice]
        simp only [spliceInto, set_append_cons]
        refine ⟨?_, ?_, ?_⟩
        · rw [nodeListOK_iff]
          intro d hd
          simp only [List.mem_append, List.mem_cons] at hd
          rcases hd with hd | hd | hd
          · exact hOK' d (by simp [hd])
          · subst hd; rfl
          · exact hOK' d (by simp [hd])
        · simp
        · simp only [panesOfList_append, panesOfList, panesOf]
          have base := perm_cons_out p (panesOfList A ++ [q]) (panesOfList B)
          simpa [List.append_assoc] using base
      | split o3 cs3 sz3 =>
        have h3OK : nodeOK (Node.split o3 cs3 sz3) = true := hcs2OK' _ (by simp)
        simp only [nodeOK, Bool.and_eq_true, decide_eq_true_eq] at h3OK
        rw [hsplice]
        simp only [spliceInto, take_append_cons, drop_append_cons]
        refine ⟨?_, ?_, ?_⟩
        · rw [nodeListOK_iff]
          intro d hd
          simp only [List.mem_append] at hd
          rcases hd with (hd | hd) | hd
          · exact hOK' d (by simp [hd])
          · exact nodeListOK_iff.mp h3OK.2 d hd
          · exact hOK' d (by simp [hd])
        · have := h3OK.1
          simp only [List.length_append, List.length_cons]
          omega
        · simp only [panesOfList_append, panesOfList, panesOf, List.append_assoc]
          have base := perm_cons_out p (panesOfList A ++ panesOfList cs3)
            (panesOfList B)
          simpa [List.append_assoc] using base

mutual

theorem nodeOK_closeNode {p : Nat} : ∀ n : Node,
    nodeOK n = true → hasDirectPaneLe2 p n = false →
    nodeOK (closeNode p n) = true
  | .pane q, _, _ => by simp [closeNode, nodeOK]
  | .split o cs szs, h, hle => by
    simp only [nodeOK, Bool.and_eq_true, decide_eq_true_eq] at h
    obtain ⟨hlen, hOK⟩ := h
    by_cases hany : cs.any (isPaneId p) = true
    · have hgt : ¬ cs.length ≤ 2 := by
        simp only [hasDirectPaneLe2, hany, Bool.true_and,
          decide_eq_false_iff_not] at hle
        exact hle
      obtain ⟨A, c, B, hdec, hc, _, hidx⟩ := any_decomp hany
      subst hdec
      simp only [closeNode, hany, if_true, hidx, eraseIdx_append_cons, nodeOK,
        Bool.and_eq_true, decide_eq_true_eq]
      constructor
      · simp only [List.length_append, List.length_cons] at hgt
        simp only [List.length_append]
        omega
      · rw [nodeListOK_iff]
        intro d hd
        simp only [List.mem_append] at hd
        rcases hd with hd | hd
        · exact nodeListOK_iff.mp hOK d (by simp [hd])
        · exact nodeListOK_iff.mp hOK d (by simp [hd])
    · rw [Bool.not_eq_true] at hany
      by_cases hany2 : cs.any (hasDirectPaneLe2 p) = true
      · obtain ⟨hOK', hlen', _⟩ := @spliceCase_props p cs szs hany2 hOK
        simp only [closeNode, hany, Bool.false_eq_true, if_false, hany2,
          if_true, nodeOK, Bool.and_eq_true, decide_eq_true_eq]
        exact ⟨le_trans hlen hlen', hOK'⟩
      · rw [Bool.not_eq_true] at hany2
        simp only [closeNode, hany, Bool.false_eq_true, if_false, hany2, nodeOK,
          Bool.and_eq_true, decide_eq_true_eq, length_closeNodeList]
        exact ⟨hlen, nodeListOK_closeNodeList cs hOK hany2⟩

theorem nodeListOK_closeNodeList {p : Nat} : ∀ cs : List Node,
    nodeListOK cs = true → cs.any (hasDirectPaneLe2 p) = false →
    nodeListOK (closeNodeList p cs) = true
  | [], _, _ => rfl
  | c :: cs, h, hany2 => by
    simp only [nodeListOK, Bool.and_eq_true] at h ⊢
    simp only [List.any_cons, Bool.or_eq_false_iff] at hany2
    exact ⟨nodeOK_closeNode c h.1 hany2.1,
      nodeListOK_closeNodeList cs h.2 hany2.2⟩

end

mutual

theorem panesOf_closeNode {p : Nat} : ∀ n : Node,
    isPaneId p n = false → nodeOK n = true → p ∈ panesOf n →
    (panesOf n).Nodup →
    (p :: panesOf (closeNode p n)).Perm (panesOf n)
  | .pane q, hpane, _, hmem, _ => by
    simp only [panesOf, List.mem_singleton] at hmem
    subst hmem
    simp [isPaneId] at hpane
  | .split o cs szs, _, h, hmem, hnd => by
    simp only [nodeOK, Bool.and_eq_true, decide_eq_true_eq] at h
    simp only [panesOf] at hmem hnd ⊢
    by_cases hany : cs.any (isPaneId p) = true
    · obtain ⟨A, c, B, hdec, hc, _, hidx⟩ := any_decomp hany
      have hc' : c = Node.pane p := isPaneId_iff.mp hc
      subst hc'
      subst hdec
      simp only [closeNode, hany, if_true, hidx, eraseIdx_append_cons, panesOf,
        panesOfList_append, panesOfList]
      exact perm_cons_out p (panesOfList A) (panesOfList B)
    · rw [Bool.not_eq_true] at hany
      by_cases hany2 : cs.any (hasDirectPaneLe2 p) = true
      · simp only [closeNode, hany, Bool.false_eq_true, if_false, hany2,
          if_true, panesOf]
        exact (@spliceCase_props p cs szs hany2 h.2).2.2
      · rw [Bool.not_eq_true] at hany2
        simp only [closeNode, hany, Bool.false_eq_true, if_false, hany2,
          panesOf]
        exact panesOfList_closeNodeList_perm cs hany h.2 hmem hnd

theorem panesOfList_closeNodeList_perm {p : Nat} : ∀ cs : List Node,
    cs.any (isPaneId p) = false → nodeListOK cs = true →
    p ∈ panesOfList cs → (panesOfList cs).Nodup →
    (p :: panesOfList (closeNodeList p cs)).Perm (panesOfList cs)
  | [], _, _, hmem, _ => by simp [panesOfList] at hmem
  | c :: cs, hany, hOK, hmem, hnd => by
    simp only [List.any_cons, Bool.or_eq_false_iff] at hany
    simp only [nodeListOK, Bool.and_eq_true] at hOK
    simp only [panesOfList, List.mem_append] at hmem
    simp only [panesOfList] at hnd ⊢
    obtain ⟨nd1, nd2, disj⟩ := List.nodup_append.mp hnd
    rcases hmem with hmem | hmem
    · have hnot : p ∉ panesOfList cs := fun hp => disj hmem hp
      rw [closeNodeList_of_not_mem cs hnot]
      have ih := panesOf_closeNode c hany.1 hOK.1 hmem nd1
      exact List.Perm.append_right (panesOfList cs) ih
    · have hnot : p ∉ panesOf c := fun hp => disj hp hmem
      rw [closeNode_of_not_mem c hnot]
      have ih := panesOfList_closeNodeList_perm cs hany.2 hOK.2 hmem nd2
      exact (perm_cons_out p (panesOf c) _).trans (List.Perm.append_left _ ih)

end

theorem perm_erase_append {p : Nat} {l : List Nat} (hp : p ∈ l) :
    (l.erase p ++ [p]).Perm l :=
  (List.perm_append_singleton p (l.erase p)).trans (List.perm_cons_erase hp).symm

theorem setActiveViewSpace_spaces_perm {s : MState} {p : Nat}
    (hp : p ∈ s.spaces) :
    (ViewManager.setActiveViewSpace s p).spaces.Perm s.spaces := by
  rw [ViewManager.setActiveViewSpace]
  split
  · exact List.Perm.refl _
  · exact perm_erase_append hp

theorem setActiveViewSpace_keeps (s : MState) (p : Nat) :
    (ViewManager.setActiveViewSpace s p).rootCs = s.rootCs ∧
    (ViewManager.setActiveViewSpace s p).rootO = s.rootO ∧
    (ViewManager.setActiveViewSpace s p).rootSz = s.rootSz ∧
    (ViewManager.setActiveViewSpace s p).views = s.views ∧
    (ViewManager.setActiveViewSpace s p).nextPane = s.nextPane ∧
    (ViewManager.setActiveViewSpace s p).nextView = s.nextView ∧
    (ViewManager.setActiveViewSpace s p).closeEnabled = s.closeEnabled := by
  rw [ViewManager.setActiveViewSpace]
  split <;> exact ⟨rfl, rfl, rfl, rfl, rfl, rfl, rfl⟩

theorem MInv_setActiveViewSpace {s : MState} (hs : MInv s) {p : Nat}
    (hp : p ∈ s.spaces) : MInv (ViewManager.setActiveViewSpace s p) := by
  obtain ⟨h1, h2, h3, h4, h5, h6, h7⟩ := setActiveViewSpace_keeps s p
  exact ⟨h1 ▸ hs.rootLen, h1 ▸ hs.rootOK, h1 ▸ hs.rootSingle,
    h1 ▸ hs.nodup, h1 ▸ (setActiveViewSpace_spaces_perm hp).trans hs.perm,
    h1 ▸ h5 ▸ hs.fresh, h4 ▸ h5 ▸ hs.vfresh⟩

/-- Building the invariant for the state produced by every mutating branch
of `closeTree` from facts about the new root children. -/
theorem MInv_mk_close {t : MState} (ht : MInv t) {p : Nat}
    (rcs : List Node) (ro : Orient) (rsz : List Int) (ce : Bool)
    (hOK : nodeListOK rcs = true)
    (hlen : 1 ≤ rcs.length)
    (hsingle : rcs.length = 1 → ∃ q, rcs = [Node.pane q])
    (hperm : (p :: panesOfList rcs).Perm (panesOfList t.rootCs)) :
    MInv { t with
      rootO := ro
      rootCs := rcs
      rootSz := rsz
      spaces := t.spaces.erase p
      views := eraseViewsAux t.views p
      closeEnabled := ce } := by
  have hnodup : (p :: panesOfList rcs).Nodup := hperm.symm.nodup ht.nodup
  refine ⟨hlen, hOK, hsingle, hnodup.of_cons, ?_, ?_, ?_⟩
  · have h1 : (t.spaces.erase p).Perm ((panesOfList t.rootCs).erase p) :=
      ht.perm.erase p
    have h2 : ((panesOfList t.rootCs).erase p).Perm
        ((p :: panesOfList rcs).erase p) :=
      hperm.symm.erase p
    rw [List.erase_cons_head] at h2
    exact h1.trans h2
  · intro q hq
    exact ht.fresh q (hperm.mem_iff.mp (List.mem_cons_of_mem p hq))
  · intro kv hkv
    exact ht.vfresh kv (List.mem_of_mem_filter hkv)

/-- The tree surgery of `closeViewSpace` preserves the manager invariant. -/
theorem MInv_closeTree {t : MState} (ht : MInv t) {p : Nat}
    (hp : p ∈ panesOfList t.rootCs) : MInv (closeTree t p) := by
  by_cases hany : t.rootCs.any (isPaneId p) = true
  · by_cases hgt : 2 < t.rootCs.length
    · -- case A at the root: plain removal
      obtain ⟨A, c, B, hdec, hc, _, hidx⟩ := any_decomp hany
      have hc' : c = Node.pane p := isPaneId_iff.mp hc
      subst hc'
      have hlenAB : t.rootCs.length = A.length + B.length + 1 := by
        rw [hdec]; simp; omega
      simp only [closeTree, hany, if_true, hgt, ite_true, hidx]
      rw [hdec, eraseIdx_append_cons]
      refine MInv_mk_close ht _ _ _ _ ?_ ?_ ?_ ?_
      · rw [nodeListOK_iff]
        intro d hd
        simp only [List.mem_append] at hd
        refine nodeListOK_iff.mp ht.rootOK d ?_
        rw [hdec]
        rcases hd with hd | hd <;> simp [hd]
      · simp only [List.length_append]
        omega
      · intro h1
        exfalso
        simp only [List.length_append] at h1
        omega
      · rw [hdec]
        simp only [panesOfList_append, panesOfList, panesOf]
        exact perm_cons_out p (panesOfList A) (panesOfList B)
    · by_cases hlt : t.rootCs.length < 2
      · -- the early `return`
        simp only [closeTree, hany, if_true, hgt, ite_false, hlt, ite_true]
        exact ht
      · -- case B at the root: exactly two children
        have hlen2 : t.rootCs.length = 2 := by omega
        obtain ⟨c1, c2, hdec2⟩ : ∃ c1 c2, t.rootCs = [c1, c2] := by
          match t.rootCs, hlen2 with
          | [c1, c2], _ => exact ⟨c1, c2, rfl⟩
        have hmem2 : Node.pane p ∈ [c1, c2] := hdec2 ▸ any_isPaneId_iff.mp hany
        by_cases h1 : isPaneId p c1 = true
        · have hc1 : c1 = Node.pane p := isPaneId_iff.mp h1
          subst hc1
          have hidx2 : t.rootCs.findIdx (isPaneId p) = 0 := by
            rw [hdec2]; simp [List.findIdx_cons, h1]
          have hother : t.rootCs.getD (1 - t.rootCs.findIdx (isPaneId p))
              (Node.pane 0) = c2 := by
            rw [hidx2, hdec2]; rfl
          simp only [closeTree, hany, if_true, hgt, ite_false, hlt, ite_false]
          rw [hother]
          cases c2 with
          | pane q =>
            refine MInv_mk_close ht _ _ _ _ ?_ ?_ ?_ ?_
            · rfl
            · simp
            · intro _; exact ⟨q, rfl⟩
            · rw [hdec2]
              simp [panesOfList, panesOf]
          | split o2 cs2 sz2 =>
            have h2OK : nodeOK (Node.split o2 cs2 sz2) = true := by
              refine nodeListOK_iff.mp ht.rootOK _ ?_
              rw [hdec2]; simp
            simp only [nodeOK, Bool.and_eq_true, decide_eq_true_eq] at h2OK
            refine MInv_mk_close ht _ _ _ _ ?_ ?_ ?_ ?_
            · exact h2OK.2
            · omega
            · intro h1'; exfalso; omega
            · rw [hdec2]
              simp [panesOfList, panesOf]
        · have h2 : isPaneId p c2 = true := by
            rcases List.mem_cons.mp hmem2 with he | he
            · exact absurd (isPaneId_iff.mpr he.symm) h1
            · rcases List.mem_singleton.mp he with he2
              exact isPaneId_iff.mpr he2.symm
          have hc2 : c2 = Node.pane p := isPaneId_iff.mp h2
          subst hc2
          rw [Bool.not_eq_true] at h1
          have hidx2 : t.rootCs.findIdx (isPaneId p) = 1 := by
            rw [hdec2]; simp [List.findIdx_cons, h1, h2]
          have hother : t.rootCs.getD (1 - t.rootCs.findIdx (isPaneId p))
              (Node.pane 0) = c1 := by
            rw [hidx2, hdec2]; rfl
          simp only [closeTree, hany, if_true, hgt, ite_false, hlt, ite_false]
          rw [hother]
          cases c1 with
          | pane q =>
            refine MInv_mk_close ht _ _ _ _ ?_ ?_ ?_ ?_
            · rfl
            · simp
            · intro _; exact ⟨q, rfl⟩
            · rw [hdec2]
              simp only [panesOfList, panesOf, List.append_nil]
              exact List.Perm.swap q p []
          | split o2 cs2 sz2 =>
            have h2OK : nodeOK (Node.split o2 cs2 sz2) = true := by
              refine nodeListOK_iff.mp ht.rootOK _ ?_
              rw [hdec2]; simp
            simp only [nodeOK, Bool.and_eq_true, decide_eq_true_eq] at h2OK
            refine MInv_mk_close ht _ _ _ _ ?_ ?_ ?_ ?_
            · exact h2OK.2
            · omega
            · intro h1'; exfalso; omega
            · rw [hdec2]
              simp only [panesOfList, panesOf, List.append_nil]
              simpa using perm_cons_out p (panesOfList cs2) []
  · -- the pane's parent is a sub-splitter
    have hlen2 : 2 ≤ t.rootCs.length := by
      rcases Nat.lt_or_ge t.rootCs.length 2 with h | h
      · exfalso
        have h1 : t.rootCs.length = 1 := by
          have := ht.rootLen; omega
        obtain ⟨q, hq⟩ := ht.rootSingle h1
        rw [hq] at hp
        simp only [panesOfList, panesOf, List.append_nil,
          List.mem_singleton] at hp
        subst hp
        rw [hq] at hany
        simp [isPaneId] at hany
      · exact h
    rw [Bool.not_eq_true] at hany
    by_cases hany2 : t.rootCs.any (hasDirectPaneLe2 p) = true
    · obtain ⟨hOK', hlen', hperm'⟩ :=
        @spliceCase_props p t.rootCs t.rootSz hany2 ht.rootOK
      simp only [closeTree, hany, Bool.false_eq_true, ite_false, hany2,
        ite_true]
      refine MInv_mk_close ht _ _ _ _ hOK' ?_ ?_ hperm'
      · omega
      · intro h1'; exfalso; omega
    · rw [Bool.not_eq_true] at hany2
      simp only [closeTree, hany, Bool.false_eq_true, ite_false, hany2,
        ite_true]
      refine MInv_mk_close ht _ _ _ _
        (nodeListOK_closeNodeList t.rootCs ht.rootOK hany2) ?_ ?_
        (panesOfList_closeNodeList_perm t.rootCs hany ht.rootOK hp ht.nodup)
      · rw [length_closeNodeList]
        exact ht.rootLen
      · rw [length_closeNodeList]
        intro h1'; exfalso; omega

theorem panesOfList_ne_nil_of_MInv {s : MState} (hs : MInv s) :
    panesOfList s.rootCs ≠ [] := by
  have h1 := hs.rootLen
  match hcs : s.rootCs, h1 with
  | c :: cs, _ =>
    apply panesOfList_ne_nil
    · simp
    · rw [← hcs]; exact hs.rootOK

theorem spaces_ne_nil_of_MInv {s : MState} (hs : MInv s) : s.spaces ≠ [] := by
  intro h
  apply panesOfList_ne_nil_of_MInv hs
  have := hs.perm
  rw [h] at this
  exact this.symm.eq_nil

theorem mem_getLastD_of_MInv {s : MState} (hs : MInv s) :
    ViewManager.activeViewSpace s ∈ s.spaces := by
  rw [ViewManager.activeViewSpace, List.getLastD_eq_getLast?]
  rcases Option.isSome_iff_exists.mp
      (List.getLast?_isSome.mpr (spaces_ne_nil_of_MInv hs)) with ⟨a, ha⟩
  rw [ha]
  exact List.mem_of_mem_getLast? ha

/-- Mutating only the `views` table (at a live pane) and the view counter
preserves the invariant. -/
theorem MInv_set_views {s : MState} (hs : MInv s) {p : Nat} (hp : p ∈ s.spaces)
    (vs : List View) (nv : Nat) :
    MInv { s with views := setViewsAux s.views p vs, nextView := nv } := by
  refine ⟨hs.rootLen, hs.rootOK, hs.rootSingle, hs.nodup, hs.perm, hs.fresh, ?_⟩
  intro kv hkv
  rcases mem_setViewsAux hkv with h | h
  · show kv.1 < s.nextPane
    rw [h]
    exact hs.fresh p (hs.perm.mem_iff.mp hp)
  · exact hs.vfresh kv h

theorem backfillEmpty_keeps : ∀ (l : List Nat) (s : MState) (doc : Option Nat),
    (backfillEmpty s l doc).rootCs = s.rootCs ∧
    (backfillEmpty s l doc).rootO = s.rootO ∧
    (backfillEmpty s l doc).rootSz = s.rootSz ∧
    (backfillEmpty s l doc).spaces = s.spaces ∧
    (backfillEmpty s l doc).nextPane = s.nextPane ∧
    (backfillEmpty s l doc).closeEnabled = s.closeEnabled
  | [], s, doc => ⟨rfl, rfl, rfl, rfl, rfl, rfl⟩
  | q :: rest, s, doc => by
    simp only [backfillEmpty]
    split <;> exact backfillEmpty_keeps rest _ doc

theorem MInv_backfillEmpty : ∀ (l : List Nat) (s : MState) (doc : Option Nat),
    MInv s → (∀ q ∈ l, q ∈ s.spaces) → MInv (backfillEmpty s l doc)
  | [], s, doc, hs, _ => hs
  | q :: rest, s, doc, hs, hl => by
    simp only [backfillEmpty]
    split
    · refine MInv_backfillEmpty rest _ doc
        (MInv_set_views hs (hl q (by simp)) _ _) ?_
      intro r hr
      exact hl r (by simp [hr])
    · exact MInv_backfillEmpty rest s doc hs fun r hr => hl r (by simp [hr])

theorem removeDocAll_keeps : ∀ (l : List Nat) (s : MState) (doc : Nat),
    (removeDocAll s l doc).rootCs = s.rootCs ∧
    (removeDocAll s l doc).rootO = s.rootO ∧
    (removeDocAll s l doc).rootSz = s.rootSz ∧
    (removeDocAll s l doc).spaces = s.spaces ∧
    (removeDocAll s l doc).nextPane = s.nextPane ∧
    (removeDocAll s l doc).nextView = s.nextView ∧
    (removeDocAll s l doc).closeEnabled = s.closeEnabled
  | [], s, doc => ⟨rfl, rfl, rfl, rfl, rfl, rfl, rfl⟩
  | q :: rest, s, doc => removeDocAll_keeps rest _ doc

theorem MInv_removeDocAll : ∀ (l : List Nat) (s : MState) (doc : Nat),
    MInv s → (∀ q ∈ l, q ∈ s.spaces) → MInv (removeDocAll s l doc)
  | [], s, doc, hs, _ => hs
  | q :: rest, s, doc, hs, hl => by
    simp only [removeDocAll]
    refine MInv_removeDocAll rest _ doc ?_ ?_
    · exact MInv_set_views hs (hl q (by simp)) _ s.nextView
    · intro r hr
      exact hl r (by simp [hr])

theorem MInv_setCurrentDocument {s : MState} (hs : MInv s) (doc : Nat)
    (fov : Bool) : MInv (setCurrentDocument s doc fov) := by
  rw [setCurrentDocument]
  have hmem := mem_getLastD_of_MInv hs
  refine MInv_backfillEmpty _ _ _ ?_ (fun q hq => List.mem_of_mem_dropLast hq)
  split
  · exact hs
  next hneg =>
    split
    · -- `findOpenView` set: search the other panes in reverse recency order
      dsimp only
      split
      · rename_i q hf
        have hq' := List.mem_of_find?_eq_some hf
        rw [List.mem_reverse] at hq'
        exact MInv_setActiveViewSpace hs (List.mem_of_mem_dropLast hq')
      · exact MInv_set_views hs hmem _ _
    · exact MInv_set_views hs hmem _ _

theorem MInv_slotDocumentClosed {s : MState} (hs : MInv s) (doc : Nat) :
    MInv (slotDocumentClosed s doc) := by
  rw [slotDocumentClosed]
  have h1 : MInv (removeDocAll s s.spaces doc) :=
    MInv_removeDocAll _ _ _ hs fun q hq => hq
  split
  · refine MInv_backfillEmpty _ _ _ h1 ?_
    intro q hq
    exact List.mem_of_mem_dropLast hq
  · exact h1

theorem MInv_closeViewSpace {s : MState} (hs : MInv s) {p : Nat}
    (hp : p ∈ s.spaces) {s' : MState}
    (h : closeViewSpace s p = some s') : MInv s' := by
  have hpanes : p ∈ panesOfList s.rootCs := hs.perm.mem_iff.mp hp
  rw [closeViewSpace] at h
  split at h
  · simp at h
  next a hgl =>
    split at h
    · split at h
      · simp at h
      next prev hgl2 =>
        simp only [Option.some.injEq] at h
        subst h
        have hprev : prev ∈ s.spaces :=
          List.mem_of_mem_dropLast (List.mem_of_mem_getLast? hgl2)
        apply MInv_closeTree (MInv_setActiveViewSpace hs hprev)
        rw [(setActiveViewSpace_keeps s prev).1]
        exact hpanes
    · simp only [Option.some.injEq] at h
      subst h
      exact MInv_closeTree hs hpanes

theorem MInv_initMState : MInv initMState := by
  refine ⟨?_, ?_, ?_, ?_, ?_, ?_, ?_⟩ <;> simp [initMState, panesOfList, panesOf, nodeListOK, nodeOK]

/-- All reachable states satisfy the invariant. -/
theorem reach_MInv {s : MState} (h : Reach s) : MInv s := by
  induction h with
  | init => exact MInv_initMState
  | split s p o _ hp ih => exact MInv_splitViewSpace ih hp o
  | close s s' p _ hp hc ih => exact MInv_closeViewSpace ih hp hc
  | setActive s p _ hp ih => exact MInv_setActiveViewSpace ih hp
  | setCurrent s doc fov _ ih => exact MInv_setCurrentDocument ih doc fov
  | docClosed s doc _ ih => exact MInv_slotDocumentClosed ih doc

theorem reachSC_reach {s : MState} (h : ReachSC s) : Reach s := by
  induction h with
  | init => exact Reach.init
  | split s p o _ hp ih => exact Reach.split s p o ih hp
  | close s s' p _ hp hc ih => exact Reach.close s s' p ih hp hc

theorem rootCs_single_spaces {s : MState} (hs : MInv s) {q : Nat}
    (h : s.rootCs = [Node.pane q]) : s.spaces = [q] := by
  have hperm := hs.perm
  rw [h] at hperm
  simp only [panesOfList, panesOf, List.append_nil] at hperm
  exact List.perm_singleton.mp hperm

theorem rootCs_two_of_spaces_two {s : MState} (hs : MInv s)
    (h : 2 ≤ s.spaces.length) : 2 ≤ s.rootCs.length := by
  rcases Nat.lt_or_ge s.rootCs.length 2 with hlt | hge
  · exfalso
    have h1 : s.rootCs.length = 1 := by
      have := hs.rootLen; omega
    obtain ⟨q, hq⟩ := hs.rootSingle h1
    have := rootCs_single_spaces hs hq
    rw [this] at h
    simp at h
  · exact hge

/-- Direct description of the fields every mutating branch of `closeTree`
sets; the hypothesis rules out the early-`return` branch (`p` a direct root
child of a fewer-than-two-children root). -/
theorem closeTree_fields {t : MState} {p : Nat}
    (h2 : 2 ≤ t.rootCs.length ∨ t.rootCs.any (isPaneId p) = false) :
    (closeTree t p).spaces = t.spaces.erase p ∧
    (closeTree t p).views = eraseViewsAux t.views p ∧
    (closeTree t p).closeEnabled = ViewManager.canCloseViewSpace (closeTree t p) ∧
    (closeTree t p).nextPane = t.nextPane ∧
    (closeTree t p).nextView = t.nextView := by
  by_cases hany : t.rootCs.any (isPaneId p) = true
  · have hge2 : 2 ≤ t.rootCs.length := by
      rcases h2 with h | h
      · exact h
      · rw [hany] at h; simp at h
    by_cases hgt : 2 < t.rootCs.length
    · simp only [closeTree, hany, if_true, hgt, ite_true]
      and_intros <;> trivial
    · have hlt : ¬ t.rootCs.length < 2 := by omega
      simp only [closeTree, hany, if_true, hgt, ite_false, hlt]
      split <;> (and_intros <;> trivial)
  · rw [Bool.not_eq_true] at hany
    simp only [closeTree, hany, Bool.false_eq_true, ite_false]
    and_intros <;> trivial

theorem panesOf_length_pos {c : Node} (h : nodeOK c = true) :
    1 ≤ (panesOf c).length := by
  rcases hx : panesOf c with _ | ⟨a, l⟩
  · exact absurd hx (panesOf_ne_nil c h)
  · simp

/-- With the invariant, `self.count() > 1` is the same as having at least
two panes in total. -/
theorem canClose_iff_two_panes {s : MState} (hs : MInv s) :
    ViewManager.canCloseViewSpace s = true ↔ 2 ≤ (panesOfList s.rootCs).length := by
  rw [ViewManager.canCloseViewSpace, decide_eq_true_eq]
  constructor
  · intro h
    obtain ⟨c1, c2, rest, hdec⟩ : ∃ c1 c2 rest, s.rootCs = c1 :: c2 :: rest := by
      match s.rootCs, h with
      | c1 :: c2 :: rest, _ => exact ⟨c1, c2, rest, rfl⟩
    have hOK := nodeListOK_iff.mp hs.rootOK
    have h1 : 1 ≤ (panesOf c1).length := by
      refine panesOf_length_pos (hOK c1 ?_); rw [hdec]; simp
    have h2' : 1 ≤ (panesOf c2).length := by
      refine panesOf_length_pos (hOK c2 ?_); rw [hdec]; simp
    rw [hdec]
    simp only [panesOfList, List.length_append]
    omega
  · intro h
    by_contra hle
    have h1 : s.rootCs.length = 1 := by
      have := hs.rootLen; omega
    obtain ⟨q, hq⟩ := hs.rootSingle h1
    rw [hq] at h
    simp [panesOfList, panesOf] at h

theorem findIdx_append_cons {α : Type} (pred : α → Bool) (A : List α) (c : α)
    (B : List α) (hA : ∀ a ∈ A, pred a = false) (hc : pred c = true) :
    (A ++ c :: B).findIdx pred = A.length := by
  induction A with
  | nil => simp [List.findIdx_cons, hc]
  | cons a A ih =>
    have ha := hA a (by simp)
    simp [List.findIdx_cons, ha, ih fun x hx => hA x (by simp [hx])]

theorem isPaneId_false_of_not_mem {x : Nat} {cs : List Node}
    (h : x ∉ panesOfList cs) : ∀ a ∈ cs, isPaneId x a = false := by
  intro a ha
  rw [Bool.eq_false_iff]
  intro hT
  have := isPaneId_iff.mp hT
  subst this
  exact h (mem_panes_of_pane_mem ha)

theorem hasDirect_false_of_not_mem {x : Nat} {cs : List Node}
    (h : x ∉ panesOfList cs) : ∀ a ∈ cs, hasDirectPaneLe2 x a = false := by
  intro a ha
  rw [Bool.eq_false_iff]
  intro hT
  exact h (mem_panesOfList.mpr ⟨a, ha, hasDirectPaneLe2_mem hT⟩)

theorem eraseViewsAux_setViewsAux {q : Nat} {vs : List View} :
    ∀ {m : List (Nat × List View)}, (∀ kv ∈ m, kv.1 ≠ q) →
    eraseViewsAux (setViewsAux m q vs) q = m := by
  intro m
  induction m with
  | nil =>
    intro _
    simp [setViewsAux, eraseViewsAux]
  | cons kv m ih =>
    intro hm
    have hk : kv.1 ≠ q := hm kv (by simp)
    simp only [setViewsAux, if_neg hk, eraseViewsAux, List.filter_cons]
    rw [if_pos (by simpa using hk)]
    rw [show (List.filter (fun kv => kv.1 != q) (setViewsAux m q vs))
        = eraseViewsAux (setViewsAux m q vs) q from rfl]
    rw [ih fun kv hkv => hm kv (by simp [hkv])]

mutual

theorem splitNode_not_target {p newId : Nat} {o : Orient} : ∀ n : Node,
    nodeOK n = true → newId ∉ panesOf n → p ≠ newId →
    isPaneId newId (splitNode p newId o n) = false ∧
    hasDirectPaneLe2 newId (splitNode p newId o n) = false
  | .pane q, _, hn, _ => by
    have hq : (q == newId) = false := by
      simp only [panesOf, List.mem_singleton] at hn
      simp [beq_eq_false_iff_ne]
      intro h
      exact hn h.symm
    constructor <;> simp [splitNode, isPaneId, hasDirectPaneLe2, hq]
  | .split so cs szs, hOK, hn, hpn => by
    simp only [nodeOK, Bool.and_eq_true, decide_eq_true_eq] at hOK
    simp only [panesOf] at hn
    by_cases hany : cs.any (isPaneId p) = true
    · have h1 : ¬ cs.length = 1 := by omega
      obtain ⟨A, c, B, hdec, hc, _, hidx⟩ := any_decomp hany
      have hc' : c = Node.pane p := isPaneId_iff.mp hc
      subst hc'
      subst hdec
      by_cases hso : so = o
      · simp only [splitNode, hany, if_true, splitInChildren, if_neg h1,
          if_pos hso, hidx, insertIdx_append_cons]
        refine ⟨rfl, ?_⟩
        simp only [hasDirectPaneLe2]
        have hlong : ¬ ((A ++ Node.pane p :: Node.pane newId :: B).length ≤ 2) := by
          simp only [List.length_append, List.length_cons]
          simp only [List.length_append, List.length_cons] at hOK
          omega
        rw [Bool.and_eq_false_iff]
        right
        simpa using hlong
      · simp only [splitNode, hany, if_true, splitInChildren, if_neg h1,
          if_neg hso, hidx, set_append_cons]
        refine ⟨rfl, ?_⟩
        simp only [hasDirectPaneLe2]
        have hanyF : (A ++ (Node.split o [Node.pane p, Node.pane newId]
            [defaultSize.fdiv 2, defaultSize.fdiv 2]) :: B).any
            (isPaneId newId) = false := by
          rw [List.any_eq_false]
          intro a ha
          rw [Bool.not_eq_true]
          simp only [List.mem_append, List.mem_cons] at ha
          rcases ha with ha | ha | ha
          · refine @isPaneId_false_of_not_mem newId A ?_ a ha
            intro hx
            exact hn (by rw [panesOfList_append]; simp [hx])
          · subst ha; rfl
          · refine @isPaneId_false_of_not_mem newId B ?_ a ha
            intro hx
            refine hn ?_
            rw [panesOfList_append]
            simp only [panesOfList, panesOf, List.mem_append, List.mem_cons]
            simp [hx]
        simp [hanyF]
    · rw [Bool.not_eq_true] at hany
      simp only [splitNode, hany, Bool.false_eq_true, if_false]
      refine ⟨rfl, ?_⟩
      simp only [hasDirectPaneLe2]
      have := (splitNodeList_not_target (o := o) cs hOK.2 hn hpn).1
      simp [this]

theorem splitNodeList_not_target {p newId : Nat} {o : Orient} :
    ∀ cs : List Node, nodeListOK cs = true → newId ∉ panesOfList cs →
    p ≠ newId →
    (splitNodeList p newId o cs).any (isPaneId newId) = false ∧
    (splitNodeList p newId o cs).any (hasDirectPaneLe2 newId) = false
  | [], _, _, _ => ⟨rfl, rfl⟩
  | c :: cs, hOK, hn, hpn => by
    simp only [nodeListOK, Bool.and_eq_true] at hOK
    simp only [panesOfList, List.mem_append] at hn
    push_neg at hn
    have hhead := splitNode_not_target (o := o) c hOK.1 hn.1 hpn
    have htail := splitNodeList_not_target (o := o) cs hOK.2 hn.2 hpn
    constructor <;>
      simp only [splitNodeList, List.any_cons, Bool.or_eq_false_iff]
    · exact ⟨hhead.1, htail.1⟩
    · exact ⟨hhead.2, htail.2⟩

end

mutual

/-- Round trip below the root: closing the freshly created pane immediately
after a split restores the subtree exactly (the claims of `splitViewSpace`
and `closeViewSpace` cancel at `p`'s parent splitter). -/
theorem closeNode_splitNode {p newId : Nat} {o : Orient} : ∀ n : Node,
    isPaneId p n = false → nodeOK n = true → p ∈ panesOf n →
    (panesOf n).Nodup → newId ∉ panesOf n →
    closeNode newId (splitNode p newId o n) = n
  | .pane q, hp, _, hmem, _, _ => by
    simp only [panesOf, List.mem_singleton] at hmem
    subst hmem
    simp [isPaneId] at hp
  | .split so cs szs, _, hOK, hmem, hnd, hn => by
    simp only [nodeOK, Bool.and_eq_true, decide_eq_true_eq] at hOK
    simp only [panesOf] at hmem hnd hn
    have hpn : p ≠ newId := fun h => hn (h ▸ hmem)
    by_cases hany : cs.any (isPaneId p) = true
    · have h1 : ¬ cs.length = 1 := by omega
      obtain ⟨A, c, B, hdec, hc, _, hidx⟩ := any_decomp hany
      have hc' : c = Node.pane p := isPaneId_iff.mp hc
      subst hc'
      subst hdec
      have hnA : newId ∉ panesOfList A := by
        intro hx
        exact hn (by rw [panesOfList_append]; simp [hx])
      have hnB : newId ∉ panesOfList B := by
        intro hx
        refine hn ?_
        rw [panesOfList_append]
        simp only [panesOfList, panesOf, List.mem_append, List.mem_cons]
        simp [hx]
      by_cases hso : so = o
      · -- same orientation: the new pane is a sibling, closed by case A
        have hsplit : splitNode p newId o (Node.split so (A ++ Node.pane p :: B) szs)
            = Node.split so (A ++ Node.pane p :: Node.pane newId :: B)
              (szs.insertIdx (A.length + 1) defaultSize) := by
          simp only [splitNode, hany, if_true, splitInChildren, if_neg h1,
            if_pos hso, hidx, insertIdx_append_cons]
        rw [hsplit]
        have hassoc : A ++ Node.pane p :: Node.pane newId :: B
            = (A ++ [Node.pane p]) ++ Node.pane newId :: B := by simp
        have hanyN : (A ++ Node.pane p :: Node.pane newId :: B).any
            (isPaneId newId) = true := by
          refine any_isPaneId_iff.mpr ?_
          simp
        have hidxN : (A ++ Node.pane p :: Node.pane newId :: B).findIdx
            (isPaneId newId) = A.length + 1 := by
          rw [hassoc]
          have hAe : ∀ a ∈ A ++ [Node.pane p], isPaneId newId a = false := by
            intro a ha
            simp only [List.mem_append, List.mem_singleton] at ha
            rcases ha with ha | ha
            · exact isPaneId_false_of_not_mem hnA a ha
            · subst ha
              simp [isPaneId, beq_eq_false_iff_ne, hpn]
          have := findIdx_append_cons (isPaneId newId) (A ++ [Node.pane p])
            (Node.pane newId) B hAe (by simp [isPaneId])
          simpa using this
        simp only [closeNode, hanyN, if_true, hidxN]
        rw [List.eraseIdx_insertIdx]
        have herase : (A ++ Node.pane p :: Node.pane newId :: B).eraseIdx
            (A.length + 1) = A ++ Node.pane p :: B := by
          rw [hassoc]
          have := eraseIdx_append_cons (A ++ [Node.pane p]) (Node.pane newId) B
          simpa using this
        rw [herase]
      · -- different orientation: the fresh two-child splitter, closed by case C
        have hsplit : splitNode p newId o (Node.split so (A ++ Node.pane p :: B) szs)
            = Node.split so (A ++ (Node.split o [Node.pane p, Node.pane newId]
                [defaultSize.fdiv 2, defaultSize.fdiv 2]) :: B) szs := by
          simp only [splitNode, hany, if_true, splitInChildren, if_neg h1,
            if_neg hso, hidx, set_append_cons]
        rw [hsplit]
        have hanyF : (A ++ (Node.split o [Node.pane p, Node.pane newId]
            [defaultSize.fdiv 2, defaultSize.fdiv 2]) :: B).any
            (isPaneId newId) = false := by
          rw [List.any_eq_false]
          intro a ha
          rw [Bool.not_eq_true]
          simp only [List.mem_append, List.mem_cons] at ha
          rcases ha with ha | ha | ha
          · exact isPaneId_false_of_not_mem hnA a ha
          · subst ha; rfl
          · exact isPaneId_false_of_not_mem hnB a ha
        have hS : hasDirectPaneLe2 newId (Node.split o
            [Node.pane p, Node.pane newId]
            [defaultSize.fdiv 2, defaultSize.fdiv 2]) = true := by
          simp [hasDirectPaneLe2, isPaneId]
        have hany2 : (A ++ (Node.split o [Node.pane p, Node.pane newId]
            [defaultSize.fdiv 2, defaultSize.fdiv 2]) :: B).any
            (hasDirectPaneLe2 newId) = true := by
          rw [List.any_eq_true]
          exact ⟨_, by simp, hS⟩
        have hidx2 : (A ++ (Node.split o [Node.pane p, Node.pane newId]
            [defaultSize.fdiv 2, defaultSize.fdiv 2]) :: B).findIdx
            (hasDirectPaneLe2 newId) = A.length :=
          findIdx_append_cons _ A _ B (hasDirect_false_of_not_mem hnA) hS
        simp only [closeNode, hanyF, Bool.false_eq_true, if_false, hany2,
          if_true]
        have hget : (A ++ (Node.split o [Node.pane p, Node.pane newId]
            [defaultSize.fdiv 2, defaultSize.fdiv 2]) :: B).getD A.length
            (Node.pane 0) = Node.split o [Node.pane p, Node.pane newId]
            [defaultSize.fdiv 2, defaultSize.fdiv 2] := getD_append_cons A _ B _
        have hsib : siblingIn newId (Node.split o [Node.pane p, Node.pane newId]
            [defaultSize.fdiv 2, defaultSize.fdiv 2]) = Node.pane p := by
          have hfp : (p == newId) = false := beq_eq_false_iff_ne.mpr hpn
          simp [siblingIn, List.findIdx_cons, isPaneId, hfp]
        have hsplice : spliceCase newId (A ++ (Node.split o
            [Node.pane p, Node.pane newId]
            [defaultSize.fdiv 2, defaultSize.fdiv 2]) :: B) szs
            = (A ++ Node.pane p :: B, szs) := by
          rw [spliceCase, hidx2, hget, hsib]
          simp [spliceInto, set_append_cons]
        rw [hsplice]
    · -- the split happened strictly deeper
      rw [Bool.not_eq_true] at hany
      have hsplit : splitNode p newId o (Node.split so cs szs)
          = Node.split so (splitNodeList p newId o cs) szs := by
        simp only [splitNode, hany, Bool.false_eq_true, if_false]
      rw [hsplit]
      obtain ⟨hg1, hg2⟩ := splitNodeList_not_target (o := o) cs hOK.2 hn hpn
      simp only [closeNode, hg1, Bool.false_eq_true, if_false, hg2]
      rw [closeNodeList_splitNodeList cs hany hOK.2 hmem hnd hn]

theorem closeNodeList_splitNodeList {p newId : Nat} {o : Orient} :
    ∀ cs : List Node, cs.any (isPaneId p) = false → nodeListOK cs = true →
    p ∈ panesOfList cs → (panesOfList cs).Nodup → newId ∉ panesOfList cs →
    closeNodeList newId (splitNodeList p newId o cs) = cs
  | [], _, _, hmem, _, _ => by simp [panesOfList] at hmem
  | c :: cs, hany, hOK, hmem, hnd, hn => by
    simp only [List.any_cons, Bool.or_eq_false_iff] at hany
    simp only [nodeListOK, Bool.and_eq_true] at hOK
    simp only [panesOfList, List.mem_append] at hmem hn
    push_neg at hn
    simp only [panesOfList] at hnd
    obtain ⟨nd1, nd2, disj⟩ := List.nodup_append.mp hnd
    have heq : closeNodeList newId (splitNodeList p newId o (c :: cs))
        = closeNode newId (splitNode p newId o c)
          :: closeNodeList newId (splitNodeList p newId o cs) := rfl
    rw [heq]
    rcases hmem with hmem | hmem
    · have hnot : p ∉ panesOfList cs := fun hx => disj hmem hx
      rw [splitNodeList_of_not_mem cs hnot,
        closeNodeList_of_not_mem cs hn.2,
        closeNode_splitNode c hany.1 hOK.1 hmem nd1 hn.1]
    · have hnot : p ∉ panesOf c := fun hx => disj hx hmem
      rw [splitNode_of_not_mem c hnot, closeNode_of_not_mem c hn.1,
        closeNodeList_splitNodeList cs hany.2 hOK.2 hmem nd2 hn.2]

end

/-- Root-level round trip: after `splitViewSpace`, closing the new pane
restores the root's children, the recency list and the views table. -/
theorem closeTree_split_restore {s : MState} (hs : MInv s) {p : Nat}
    (hp : p ∈ s.spaces) (o : Orient) :
    (closeTree (splitViewSpace s p o) s.nextPane).rootCs = s.rootCs ∧
    (closeTree (splitViewSpace s p o) s.nextPane).spaces = s.spaces ∧
    (closeTree (splitViewSpace s p o) s.nextPane).views = s.views := by
  have hmem : p ∈ panesOfList s.rootCs := hs.perm.mem_iff.mp hp
  have hnew : s.nextPane ∉ panesOfList s.rootCs := fun h =>
    absurd (hs.fresh _ h) (lt_irrefl _)
  have hpn : p ≠ s.nextPane := fun h => hnew (h ▸ hmem)
  have ht : MInv (splitViewSpace s p o) := MInv_splitViewSpace hs hp o
  have hlen2 : 2 ≤ (splitViewSpace s p o).rootCs.length := by
    refine rootCs_two_of_spaces_two ht ?_
    rw [splitViewSpace_spaces]
    have := spaces_ne_nil_of_MInv hs
    match hsp : s.spaces, this with
    | a :: l, _ => simp
  obtain ⟨hfSp, hfV, _, _, _⟩ :=
    closeTree_fields (t := splitViewSpace s p o) (p := s.nextPane)
      (Or.inl hlen2)
  refine ⟨?_, ?_, ?_⟩
  case refine_2 =>
    rw [hfSp, splitViewSpace_spaces, List.erase_cons_head]
  case refine_3 =>
    rw [hfV, splitViewSpace_views]
    refine eraseViewsAux_setViewsAux ?_
    intro kv hkv
    have := hs.vfresh kv hkv
    omega
  case refine_1 =>
    by_cases hanyR : s.rootCs.any (isPaneId p) = true
    · by_cases h1 : s.rootCs.length = 1
      · -- single root child: the split turned [pane p] into a pair
        obtain ⟨c, hc1⟩ : ∃ c, s.rootCs = [c] := by
          match s.rootCs, h1 with
          | [c], _ => exact ⟨c, rfl⟩
        have hcp : c = Node.pane p := by
          have := any_isPaneId_iff.mp hanyR
          rw [hc1] at this
          exact (List.mem_singleton.mp this).symm
        subst hcp
        have htc : (splitViewSpace s p o).rootCs
            = [Node.pane p, Node.pane s.nextPane] := by
          rw [splitViewSpace_rootCs, if_pos hanyR, hc1]
          simp [splitInChildren]
        have hanyN : (splitViewSpace s p o).rootCs.any
            (isPaneId s.nextPane) = true := by
          rw [htc]
          refine any_isPaneId_iff.mpr (by simp)
        have hgt : ¬ 2 < (splitViewSpace s p o).rootCs.length := by
          rw [htc]; simp
        have hlt : ¬ (splitViewSpace s p o).rootCs.length < 2 := by
          rw [htc]; simp
        have hidxN : (splitViewSpace s p o).rootCs.findIdx
            (isPaneId s.nextPane) = 1 := by
          rw [htc]
          have hfp : (p == s.nextPane) = false := beq_eq_false_iff_ne.mpr hpn
          simp [List.findIdx_cons, isPaneId, hfp]
        have hother : (splitViewSpace s p o).rootCs.getD
            (1 - (splitViewSpace s p o).rootCs.findIdx (isPaneId s.nextPane))
            (Node.pane 0) = Node.pane p := by
          rw [hidxN, htc]; rfl
        simp only [closeTree, hanyN, if_true, hgt, ite_false, hlt, ite_false]
        rw [hother, hc1]
      · -- root with at least two children: the two in-place placements
        obtain ⟨A, c, B, hdec, hc, _, hidx⟩ := any_decomp hanyR
        have hc' : c = Node.pane p := isPaneId_iff.mp hc
        subst hc'
        have hnA : s.nextPane ∉ panesOfList A := by
          intro hx
          exact hnew (by rw [hdec, panesOfList_append]; simp [hx])
        have hnB : s.nextPane ∉ panesOfList B := by
          intro hx
          refine hnew ?_
          rw [hdec, panesOfList_append]
          simp only [panesOfList, panesOf, List.mem_append, List.mem_cons]
          simp [hx]
        rw [hdec] at h1 hidx
        by_cases hso : s.rootO = o
        · have htc : (splitViewSpace s p o).rootCs
              = A ++ Node.pane p :: Node.pane s.nextPane :: B := by
            rw [splitViewSpace_rootCs, if_pos hanyR, hdec]
            simp only [splitInChildren, if_neg h1, if_pos hso, hidx,
              insertIdx_append_cons]
          have hassoc : A ++ Node.pane p :: Node.pane s.nextPane :: B
              = (A ++ [Node.pane p]) ++ Node.pane s.nextPane :: B := by simp
          have hanyN : (splitViewSpace s p o).rootCs.any
              (isPaneId s.nextPane) = true := by
            rw [htc]
            refine any_isPaneId_iff.mpr (by simp)
          have hgt : 2 < (splitViewSpace s p o).rootCs.length := by
            rw [htc]
            simp only [List.length_append, List.length_cons] at h1 ⊢
            omega
          have hidxN : (splitViewSpace s p o).rootCs.findIdx
              (isPaneId s.nextPane) = A.length + 1 := by
            rw [htc, hassoc]
            have hAe : ∀ a ∈ A ++ [Node.pane p],
                isPaneId s.nextPane a = false := by
              intro a ha
              simp only [List.mem_append, List.mem_singleton] at ha
              rcases ha with ha | ha
              · exact isPaneId_false_of_not_mem hnA a ha
              · subst ha
                simp [isPaneId, beq_eq_false_iff_ne, hpn]
            have := findIdx_append_cons (isPaneId s.nextPane)
              (A ++ [Node.pane p]) (Node.pane s.nextPane) B hAe
              (by simp [isPaneId])
            simpa using this
          have herase : (A ++ Node.pane p :: Node.pane s.nextPane :: B).eraseIdx
              (A.length + 1) = A ++ Node.pane p :: B := by
            rw [hassoc]
            have h' := eraseIdx_append_cons (A ++ [Node.pane p])
              (Node.pane s.nextPane) B
            simp only [List.length_append, List.length_cons,
              List.length_nil] at h'
            simpa using h'
          have herase2 : (splitViewSpace s p o).rootCs.eraseIdx
              ((splitViewSpace s p o).rootCs.findIdx (isPaneId s.nextPane))
              = s.rootCs := by
            rw [hidxN, htc, herase]
            exact hdec.symm
          simp only [closeTree, hanyN, if_true, hgt, ite_true, herase2]
        · have htc : (splitViewSpace s p o).rootCs
              = A ++ (Node.split o [Node.pane p, Node.pane s.nextPane]
                  [defaultSize.fdiv 2, defaultSize.fdiv 2]) :: B := by
            rw [splitViewSpace_rootCs, if_pos hanyR, hdec]
            simp only [splitInChildren, if_neg h1, if_neg hso, hidx,
              set_append_cons]
          have hanyF : (splitViewSpace s p o).rootCs.any
              (isPaneId s.nextPane) = false := by
            rw [htc, List.any_eq_false]
            intro a ha
            rw [Bool.not_eq_true]
            simp only [List.mem_append, List.mem_cons] at ha
            rcases ha with ha | ha | ha
            · exact isPaneId_false_of_not_mem hnA a ha
            · subst ha; rfl
            · exact isPaneId_false_of_not_mem hnB a ha
          have hS : hasDirectPaneLe2 s.nextPane (Node.split o
              [Node.pane p, Node.pane s.nextPane]
              [defaultSize.fdiv 2, defaultSize.fdiv 2]) = true := by
            simp [hasDirectPaneLe2, isPaneId]
          have hany2 : (splitViewSpace s p o).rootCs.any
              (hasDirectPaneLe2 s.nextPane) = true := by
            rw [htc, List.any_eq_true]
            exact ⟨_, by simp, hS⟩
          have hidx2 : (splitViewSpace s p o).rootCs.findIdx
              (hasDirectPaneLe2 s.nextPane) = A.length := by
            rw [htc]
            exact findIdx_append_cons _ A _ B
              (hasDirect_false_of_not_mem hnA) hS
          have hget : (splitViewSpace s p o).rootCs.getD A.length
              (Node.pane 0) = Node.split o
              [Node.pane p, Node.pane s.nextPane]
              [defaultSize.fdiv 2, defaultSize.fdiv 2] := by
            rw [htc]
            exact getD_append_cons A _ B _
          have hsib : siblingIn s.nextPane (Node.split o
              [Node.pane p, Node.pane s.nextPane]
              [defaultSize.fdiv 2, defaultSize.fdiv 2]) = Node.pane p := by
            have hfp : (p == s.nextPane) = false := beq_eq_false_iff_ne.mpr hpn
            simp [siblingIn, List.findIdx_cons, isPaneId, hfp]
          have hsplice : spliceCase s.nextPane (splitViewSpace s p o).rootCs
              (splitViewSpace s p o).rootSz
              = (A ++ Node.pane p :: B, (splitViewSpace s p o).rootSz) := by
            rw [spliceCase, hidx2, hget, hsib, htc]
            simp [spliceInto, set_append_cons]
          simp only [closeTree, hanyF, Bool.false_eq_true, ite_false, hany2,
            ite_true, hsplice]
          exact hdec.symm
    · -- the split happened strictly below the root
      rw [Bool.not_eq_true] at hanyR
      have htc : (splitViewSpace s p o).rootCs
          = splitNodeList p s.nextPane o s.rootCs := by
        rw [splitViewSpace_rootCs, if_neg (by simp [hanyR])]
      obtain ⟨hg1, hg2⟩ := splitNodeList_not_target (o := o) s.rootCs
        hs.rootOK hnew hpn
      simp only [closeTree, htc, hg1, Bool.false_eq_true, ite_false, hg2]
      exact closeNodeList_splitNodeList s.rootCs hanyR hs.rootOK hmem
        hs.nodup hnew

theorem closeViewSpace_split_eq {s : MState} (hs : MInv s) {p : Nat}
    (hp : p ∈ s.spaces) (o : Orient) :
    closeViewSpace (splitViewSpace s p o) s.nextPane
      = some (closeTree (splitViewSpace s p o) s.nextPane) := by
  have hne := spaces_ne_nil_of_MInv hs
  obtain ⟨a, ha⟩ : ∃ a, s.spaces.getLast? = some a :=
    Option.isSome_iff_exists.mp (List.getLast?_isSome.mpr hne)
  have haMem : a ∈ s.spaces := List.mem_of_mem_getLast? ha
  have haNe : a ≠ s.nextPane := by
    have : a < s.nextPane := hs.fresh a (hs.perm.mem_iff.mp haMem)
    omega
  have hglt : (splitViewSpace s p o).spaces.getLast? = some a := by
    rw [splitViewSpace_spaces]
    match hsp : s.spaces, hne, ha with
    | b :: l, _, ha' =>
      rw [← ha']
      exact List.getLast?_cons_cons
  rw [closeViewSpace]
  split
  next heq =>
    rw [hglt] at heq
    simp at heq
  next a' heq =>
    rw [hglt] at heq
    injection heq with h
    subst h
    rw [if_neg haNe]

/-- C1: for every finite sequence of `splitViewSpace`/`closeViewSpace`
operations from the initial single-pane manager, after each completed
operation the root splitter has at least one child, and every other
splitter node has at least two children (single-child sub-splitters are
eliminated immediately). -/
theorem C1_split_close_structural_invariant {s : MState} (h : ReachSC s) :
    1 ≤ s.rootCs.length ∧ ∀ c ∈ s.rootCs, nodeOK c = true := by
  have hs := reach_MInv (reachSC_reach h)
  exact ⟨hs.rootLen, nodeListOK_iff.mp hs.rootOK⟩

theorem C1_witness : 1 ≤ initMState.rootCs.length ∧
    ∀ c ∈ initMState.rootCs, nodeOK c = true :=
  C1_split_close_structural_invariant ReachSC.init

/-- C4: in every reachable state, splitting any pane `p` and then closing
the pane created by that split restores the root's children exactly (same
nodes in the same positions), the recency list and the whole views table —
in particular `p` shows the same document as before. -/
theorem C4_split_close_round_trip {s : MState} (h : Reach s) {p : Nat}
    (hp : p ∈ s.spaces) (o : Orient) :
    ∃ s', closeViewSpace (splitViewSpace s p o) s.nextPane = some s' ∧
      s'.rootCs = s.rootCs ∧ s'.spaces = s.spaces ∧ s'.views = s.views ∧
      ViewManager.paneDocOf s' p = ViewManager.paneDocOf s p := by
  have hs := reach_MInv h
  obtain ⟨h1, h2, h3⟩ := closeTree_split_restore hs hp o
  refine ⟨_, closeViewSpace_split_eq hs hp o, h1, h2, h3, ?_⟩
  rw [ViewManager.paneDocOf, ViewManager.paneDocOf, viewsOf, viewsOf, h3]

theorem C4_witness : ∃ s',
    closeViewSpace (splitViewSpace initMState 0 Orient.horizontal)
      initMState.nextPane = some s' ∧
    s'.rootCs = initMState.rootCs ∧ s'.spaces = initMState.spaces ∧
    s'.views = initMState.views ∧
    ViewManager.paneDocOf s' 0 = ViewManager.paneDocOf initMState 0 :=
  C4_split_close_round_trip Reach.init (by simp [initMState]) Orient.horizontal

/-- C7: in every reachable state the recency list is non-empty and lists
each pane of the splitter tree exactly once (so its last entry is the one
well-defined active pane), and when `closeViewSpace` successfully removes
the active pane, the state it leaves behind has the previously
second-most-recently-active pane active. -/
theorem C7_one_active_pane {s : MState} (h : Reach s) :
    (s.spaces ≠ [] ∧ s.spaces.Nodup ∧
      s.spaces.Perm (panesOfList s.rootCs)) ∧
    (∀ p s', s.spaces.getLast? = some p → closeViewSpace s p = some s' →
      s'.spaces.getLast? = s.spaces.dropLast.getLast?) := by
  have hs := reach_MInv h
  have hnodup : s.spaces.Nodup := hs.perm.symm.nodup hs.nodup
  refine ⟨⟨spaces_ne_nil_of_MInv hs, hnodup, hs.perm⟩, ?_⟩
  intro p s' hgl hc
  rw [closeViewSpace] at hc
  split at hc
  next heq => rw [hgl] at heq; simp at heq
  next a heq =>
    rw [hgl] at heq
    injection heq with heq
    subst heq
    rw [if_pos rfl] at hc
    split at hc
    next heq2 => simp at hc
    next prev heq2 =>
      simp only [Option.some.injEq] at hc
      subst hc
      -- the two panes involved are distinct
      have hne : s.spaces ≠ [] := spaces_ne_nil_of_MInv hs
      have hsp : s.spaces.dropLast ++ [s.spaces.getLast hne] = s.spaces :=
        List.dropLast_concat_getLast hne
      have hgl' : s.spaces.getLast hne = p := by
        have := List.getLast?_eq_getLast s.spaces hne
        rw [hgl] at this
        exact (Option.some.injEq _ _).mp this.symm
      have hpd : p ∉ s.spaces.dropLast := by
        intro hmem
        have hnd2 : (s.spaces.dropLast ++ [p]).Nodup := by
          rw [hgl'] at hsp
          rw [hsp]
          exact hnodup
        obtain ⟨-, -, disj⟩ := List.nodup_append.mp hnd2
        exact disj hmem (by simp)
      have hprevMem : prev ∈ s.spaces.dropLast :=
        List.mem_of_mem_getLast? heq2
      have hprevNe : p ≠ prev := fun hEq => hpd (hEq ▸ hprevMem)
      -- the activation step
      have hSA : (ViewManager.setActiveViewSpace s prev).spaces
          = s.spaces.erase prev ++ [prev] := by
        rw [ViewManager.setActiveViewSpace]
        rw [if_neg]
        intro hEq
        rw [hgl] at hEq
        injection hEq with hEq
        exact hprevNe hEq
      -- the surgery removes `a` from the recency list
      have hlen2 : 2 ≤ s.spaces.length := by
        have h1 : s.spaces.dropLast ≠ [] := by
          intro hEq
          rw [hEq] at heq2
          simp at heq2
        have := List.length_pos.mpr h1
        rw [List.length_dropLast] at this
        omega
      have hroot2 : 2 ≤ (ViewManager.setActiveViewSpace s prev).rootCs.length := by
        rw [(setActiveViewSpace_keeps s prev).1]
        exact rootCs_two_of_spaces_two hs hlen2
      obtain ⟨hfSp, _, _, _, _⟩ := closeTree_fields
        (t := ViewManager.setActiveViewSpace s prev) (p := p) (Or.inl hroot2)
      rw [hfSp, hSA]
      have haMem : p ∈ s.spaces.erase prev :=
        (List.mem_erase_of_ne hprevNe).mpr (List.mem_of_mem_getLast? hgl)
      rw [List.erase_append_left _ haMem, List.getLast?_concat, ← heq2]

/-- C10: in every reachable state `canCloseViewSpace()` holds exactly when
the manager contains at least two panes, and both `splitViewSpace` and a
successful `closeViewSpace` leave `window_close_view`'s enabled state equal
to a fresh `canCloseViewSpace()` of the resulting state. -/
theorem C10_close_enabled {s : MState} (h : Reach s) :
    (ViewManager.canCloseViewSpace s = true ↔
      2 ≤ (panesOfList s.rootCs).length) ∧
    (∀ p o, (splitViewSpace s p o).closeEnabled
        = ViewManager.canCloseViewSpace (splitViewSpace s p o)) ∧
    (∀ p s', closeViewSpace s p = some s' →
      s'.closeEnabled = ViewManager.canCloseViewSpace s') := by
  have hs := reach_MInv h
  refine ⟨canClose_iff_two_panes hs, fun p o => rfl, ?_⟩
  intro p s' hc
  rw [closeViewSpace] at hc
  split at hc
  next heq => simp at hc
  next a heq =>
    split at hc
    · split at hc
      next heq2 => simp at hc
      next prev heq2 =>
        simp only [Option.some.injEq] at hc
        subst hc
        have hlen2 : 2 ≤ s.spaces.length := by
          have h1 : s.spaces.dropLast ≠ [] := by
            intro hEq
            rw [hEq] at heq2
            simp at heq2
          have := List.length_pos.mpr h1
          rw [List.length_dropLast] at this
          omega
        have hroot2 : 2 ≤ (ViewManager.setActiveViewSpace s prev).rootCs.length := by
          rw [(setActiveViewSpace_keeps s prev).1]
          exact rootCs_two_of_spaces_two hs hlen2
        exact (closeTree_fields (Or.inl hroot2)).2.2.1
    next hap =>
      simp only [Option.some.injEq] at hc
      subst hc
      refine (closeTree_fields ?_).2.2.1
      by_cases hany : s.rootCs.any (isPaneId p) = true
      · left
        by_contra hle
        have h1 : s.rootCs.length = 1 := by
          have := hs.rootLen; omega
        obtain ⟨q, hq⟩ := hs.rootSingle h1
        have hpq : p = q := by
          have h2 := any_isPaneId_iff.mp hany
          rw [hq] at h2
          exact Node.pane.inj (List.mem_singleton.mp h2)
        have hspq := rootCs_single_spaces hs hq
        rw [hspq] at heq
        simp at heq
        exact hap (heq.symm.trans hpq.symm)
      · right
        exact eq_false_of_ne_true hany

theorem find_setViewsAux_self : ∀ (m : List (Nat × List View)) (q : Nat)
    (vs : List View),
    (setViewsAux m q vs).find? (fun kv => kv.1 == q) = some (q, vs)
  | [], q, vs => by simp [setViewsAux]
  | kv :: m, q, vs => by
    by_cases h : kv.1 = q
    · simp [setViewsAux, h, List.find?]
    · have hb : (kv.1 == q) = false := beq_eq_false_iff_ne.mpr h
      simp only [setViewsAux, if_neg h, List.find?_cons, hb]
      exact find_setViewsAux_self m q vs

theorem find_setViewsAux_ne : ∀ (m : List (Nat × List View)) (q : Nat)
    (vs : List View) (r : Nat), r ≠ q →
    (setViewsAux m q vs).find? (fun kv => kv.1 == r)
      = m.find? (fun kv => kv.1 == r)
  | [], q, vs, r, h => by
    have hb : (q == r) = false := beq_eq_false_iff_ne.mpr fun hEq => h hEq.symm
    simp [setViewsAux, List.find?, hb]
  | kv :: m, q, vs, r, h => by
    by_cases hk : kv.1 = q
    · have hb1 : (q == r) = false :=
        beq_eq_false_iff_ne.mpr fun hEq => h hEq.symm
      have hb2 : (kv.1 == r) = false := by rw [hk]; exact hb1
      simp only [setViewsAux, if_pos hk, List.find?_cons, hb1, hb2]
    · by_cases hr : kv.1 = r
      · have hb : (kv.1 == r) = true := beq_iff_eq.mpr hr
        simp only [setViewsAux, if_neg hk, List.find?_cons, hb]
      · have hb : (kv.1 == r) = false := beq_eq_false_iff_ne.mpr hr
        simp only [setViewsAux, if_neg hk, List.find?_cons, hb]
        exact find_setViewsAux_ne m q vs r h

theorem viewsOf_set_self (s : MState) (q : Nat) (vs : List View) (nv : Nat) :
    viewsOf { s with views := setViewsAux s.views q vs, nextView := nv } q
      = vs := by
  rw [viewsOf]
  show (match (setViewsAux s.views q vs).find? (fun kv => kv.1 == q) with
    | some kv => kv.2 | none => []) = vs
  rw [find_setViewsAux_self]

theorem viewsOf_set_ne (s : MState) (q : Nat) (vs : List View) (nv : Nat)
    (r : Nat) (h : r ≠ q) :
    viewsOf { s with views := setViewsAux s.views q vs, nextView := nv } r
      = viewsOf s r := by
  rw [viewsOf, viewsOf]
  show (match (setViewsAux s.views q vs).find? (fun kv => kv.1 == r) with
    | some kv => kv.2 | none => []) = _
  rw [find_setViewsAux_ne s.views q vs r h]

theorem document_eq_none_iff {vs : List View} :
    ViewSpace.document vs = none ↔ vs = [] := by
  rw [ViewSpace.document]
  cases vs using List.reverseRecOn with
  | nil => simp
  | append_singleton l v => simp [List.getLast?_concat]

theorem backfill_views_of_not_mem : ∀ (l : List Nat) (s : MState)
    (doc? : Option Nat) (r : Nat), r ∉ l →
    viewsOf (backfillEmpty s l doc?) r = viewsOf s r
  | [], _, _, _, _ => rfl
  | q :: rest, s, doc?, r, h => by
    simp only [List.mem_cons] at h
    push_neg at h
    simp only [backfillEmpty]
    split
    · rw [backfill_views_of_not_mem rest _ doc? r h.2,
        viewsOf_set_ne s q _ _ r h.1]
    · exact backfill_views_of_not_mem rest s doc? r h.2

theorem backfill_views_of_mem : ∀ (l : List Nat) (s : MState)
    (doc? : Option Nat) (r : Nat), l.Nodup → r ∈ l →
    (viewsOf s r = [] →
      ViewManager.paneDocOf (backfillEmpty s l doc?) r = doc?) ∧
    (viewsOf s r ≠ [] →
      viewsOf (backfillEmpty s l doc?) r = viewsOf s r)
  | [], _, _, _, _, hmem => by simp at hmem
  | q :: rest, s, doc?, r, hnd, hmem => by
    simp only [List.nodup_cons] at hnd
    rcases List.mem_cons.mp hmem with rfl | hmem
    · -- `r` is processed now and untouched afterwards
      constructor
      · intro hempty
        have hcond : (ViewManager.paneDocOf s r).isNone = true := by
          rw [ViewManager.paneDocOf, hempty]
          rfl
        simp only [backfillEmpty, hcond, if_true]
        rw [ViewManager.paneDocOf,
          backfill_views_of_not_mem rest _ doc? r hnd.1,
          viewsOf_set_self, hempty]
        cases doc? with
        | none => rfl
        | some d =>
          rw [ViewSpace.showDocument]
          rw [if_neg (by simp [ViewSpace.document])]
          simp [ViewSpace.document, List.getLast?_concat]
      · intro hne
        have hcond : ¬ (ViewManager.paneDocOf s r).isNone = true := by
          rw [ViewManager.paneDocOf, Option.isNone_iff_eq_none,
            document_eq_none_iff]
          exact hne
        simp only [backfillEmpty, hcond, if_false]
        exact backfill_views_of_not_mem rest s doc? r hnd.1
    · -- `r` comes later
      have hrq : r ≠ q := fun hEq => hnd.1 (hEq ▸ hmem)
      simp only [backfillEmpty]
      split
      · have hstep : viewsOf { s with
            views := setViewsAux s.views q
              (ViewSpace.showDocument (viewsOf s q) doc? s.nextView)
            nextView := s.nextView + 1 } r = viewsOf s r :=
          viewsOf_set_ne s q _ _ r hrq
        have ih := backfill_views_of_mem rest
          { s with
            views := setViewsAux s.views q
              (ViewSpace.showDocument (viewsOf s q) doc? s.nextView)
            nextView := s.nextView + 1 } doc? r hnd.2 hmem
        rw [hstep] at ih
        exact ih
      · exact backfill_views_of_mem rest s doc? r hnd.2 hmem

theorem removeDocAll_views_of_not_mem : ∀ (l : List Nat) (s : MState)
    (doc : Nat) (r : Nat), r ∉ l →
    viewsOf (removeDocAll s l doc) r = viewsOf s r
  | [], _, _, _, _ => rfl
  | q :: rest, s, doc, r, h => by
    simp only [List.mem_cons] at h
    push_neg at h
    simp only [removeDocAll]
    rw [removeDocAll_views_of_not_mem rest _ doc r h.2,
      viewsOf_set_ne s q _ _ r h.1]

theorem removeDocAll_views_of_mem : ∀ (l : List Nat) (s : MState)
    (doc : Nat) (r : Nat), l.Nodup → r ∈ l →
    viewsOf (removeDocAll s l doc) r
      = ViewSpace.removeDocument (viewsOf s r) doc
  | [], _, _, _, _, hmem => by simp at hmem
  | q :: rest, s, doc, r, hnd, hmem => by
    simp only [List.nodup_cons] at hnd
    rcases List.mem_cons.mp hmem with rfl | hmem
    · simp only [removeDocAll]
      rw [removeDocAll_views_of_not_mem rest _ doc r hnd.1,
        viewsOf_set_self]
    · have hrq : r ≠ q := fun hEq => hnd.1 (hEq ▸ hmem)
      simp only [removeDocAll]
      have ih := removeDocAll_views_of_mem rest
        { s with views := setViewsAux s.views q (ViewSpace.removeDocument (viewsOf s q) doc) }
        doc r hnd.2 hmem
      rw [ih, viewsOf_set_ne _ q _ _ r hrq]

theorem activeViewSpace_eq_getLast {s : MState} (hne : s.spaces ≠ []) :
    ViewManager.activeViewSpace s = s.spaces.getLast hne := by
  rw [ViewManager.activeViewSpace, List.getLastD_eq_getLast?,
    List.getLast?_eq_getLast s.spaces hne]
  rfl

theorem active_not_mem_dropLast {s : MState} (hs : MInv s) :
    ViewManager.activeViewSpace s ∉ s.spaces.dropLast := by
  have hne := spaces_ne_nil_of_MInv hs
  have hnodup : s.spaces.Nodup := hs.perm.symm.nodup hs.nodup
  intro hmem
  rw [activeViewSpace_eq_getLast hne] at hmem
  have hnd2 : (s.spaces.dropLast ++ [s.spaces.getLast hne]).Nodup := by
    rw [List.dropLast_concat_getLast hne]
    exact hnodup
  obtain ⟨-, -, disj⟩ := List.nodup_append.mp hnd2
  exact disj hmem (by simp)

theorem viewsOf_setActiveViewSpace (s : MState) (p r : Nat) :
    viewsOf (ViewManager.setActiveViewSpace s p) r = viewsOf s r := by
  rw [viewsOf, viewsOf, (setActiveViewSpace_keeps s p).2.2.2.1]

theorem reach_c6state : Reach c6state :=
  Reach.setCurrent _ 10 false
    (Reach.split _ 0 Orient.horizontal
      (Reach.setCurrent _ 20 false Reach.init) (by decide))

theorem reach_c9state : Reach c9state :=
  Reach.docClosed _ 1
    (Reach.setActive _ 1
      (Reach.setCurrent _ 2 false
        (Reach.split _ 0 Orient.horizontal
          (Reach.setCurrent _ 1 false Reach.init) (by decide))) (by decide))

/-- C2: closing the sole pane of a single-pane manager is NOT a defensive
no-op: `closeViewSpace` evaluates `self._viewSpaces[-2]` before the
`self.count() < 2` guard runs, and with a single recency entry that lookup
raises `IndexError` (the embedding's `none`) — the call fails with an
uncaught exception instead of returning with the state unmodified. -/
theorem C2_close_sole_pane_raises {s : MState} (p : Nat)
    (h : s.spaces = [p]) : closeViewSpace s p = none := by
  simp only [closeViewSpace, h, List.getLast?_singleton, List.dropLast_single]
  rw [if_pos trivial]
  rfl

theorem C2_witness : initMState.spaces = [0] ∧
    closeViewSpace initMState 0 = none :=
  ⟨rfl, C2_close_sole_pane_raises 0 rfl⟩

/-- C5 (counterexample): the second split of pane 0 creates pane 2 (the
intermediate state's `nextPane`), but the recency list becomes `[2, 1, 0]`:
the new pane sits at the least-recently-active front, and the entry
immediately below the active pane 0 (second-to-last) is pane 1, not the
new pane 2. -/
theorem C5_counterexample :
    (splitViewSpace initMState 0 Orient.horizontal).nextPane = 2 ∧
    (splitViewSpace (splitViewSpace initMState 0 Orient.horizontal) 0
        Orient.horizontal).spaces = [2, 1, 0] ∧
    (splitViewSpace (splitViewSpace initMState 0 Orient.horizontal) 0
        Orient.horizontal).spaces.dropLast.getLast? = some 1 :=
  ⟨rfl, rfl, rfl⟩

/-- C5 (amended): `splitViewSpace` registers the new pane (id `nextPane`)
at the FRONT of the recency list (`self._viewSpaces.insert(0, newspace)`):
it becomes the least-recently-active pane, not the second-most-recently-
active one, and the active (last) entry is unchanged. -/
theorem C5_amended_split_prepends_recency (s : MState) (p : Nat) (o : Orient) :
    (splitViewSpace s p o).spaces = s.nextPane :: s.spaces := rfl

/-- C6 (counterexample): in `c6state` pane 0 (active) stacks documents 20
and 10, pane 1 shows only 20.  `slotDocumentClosed(20)` leaves the active
pane's document at 10 — unchanged by the removal — yet it does not stop
there: pane 1, emptied by the removal, is backfilled with document 10 (a
fresh view, id 3). -/
theorem C6_counterexample :
    ViewManager.paneDocOf c6state (ViewManager.activeViewSpace c6state)
      = some 10 ∧
    ViewManager.paneDocOf (slotDocumentClosed c6state 20)
      (ViewManager.activeViewSpace (slotDocumentClosed c6state 20))
      = some 10 ∧
    ViewSpace.removeDocument (viewsOf c6state 1) 20 = [] ∧
    viewsOf (slotDocumentClosed c6state 20) 1 = [⟨3, 10⟩] :=
  ⟨rfl, rfl, rfl, rfl⟩

/-- C6 (amended): `slotDocumentClosed(doc)` removes `doc` from every pane;
the backfill loop runs exactly when `doc` differs from the document the
active pane showed BEFORE the removal (`if doc is not activeDocument`, the
case in which the active pane's stack is certainly unchanged), and it fills
each non-active pane left empty with that captured previous active
document; when `doc` WAS the active document (the case where the active
pane did change) nothing further happens. -/
theorem C6_amended_doc_closed_backfill {s : MState} (h : Reach s)
    (doc : Nat) :
    (some doc = ViewManager.paneDocOf s (ViewManager.activeViewSpace s) →
      ∀ r ∈ s.spaces,
        viewsOf (slotDocumentClosed s doc) r
          = ViewSpace.removeDocument (viewsOf s r) doc) ∧
    (some doc ≠ ViewManager.paneDocOf s (ViewManager.activeViewSpace s) →
      viewsOf (slotDocumentClosed s doc) (ViewManager.activeViewSpace s)
          = ViewSpace.removeDocument
              (viewsOf s (ViewManager.activeViewSpace s)) doc ∧
      ∀ r ∈ s.spaces.dropLast,
        (ViewSpace.removeDocument (viewsOf s r) doc = [] →
          ViewManager.paneDocOf (slotDocumentClosed s doc) r
            = ViewManager.paneDocOf s (ViewManager.activeViewSpace s)) ∧
        (ViewSpace.removeDocument (viewsOf s r) doc ≠ [] →
          viewsOf (slotDocumentClosed s doc) r
            = ViewSpace.removeDocument (viewsOf s r) doc)) := by
  have hs := reach_MInv h
  have hnodup : s.spaces.Nodup := hs.perm.symm.nodup hs.nodup
  have hndDL : s.spaces.dropLast.Nodup :=
    (List.dropLast_sublist s.spaces).nodup hnodup
  refine ⟨?_, ?_⟩
  · intro hcond r hr
    have hslot : slotDocumentClosed s doc = removeDocAll s s.spaces doc := by
      simp only [slotDocumentClosed]
      rw [if_neg (fun hn => hn hcond)]
    rw [hslot]
    exact removeDocAll_views_of_mem s.spaces s doc r hnodup hr
  · intro hcond
    have hsp1 : (removeDocAll s s.spaces doc).spaces = s.spaces :=
      (removeDocAll_keeps s.spaces s doc).2.2.2.1
    have hslot : slotDocumentClosed s doc
        = backfillEmpty (removeDocAll s s.spaces doc) s.spaces.dropLast
            (ViewManager.paneDocOf s (ViewManager.activeViewSpace s)) := by
      simp only [slotDocumentClosed]
      rw [if_pos hcond, hsp1]
    refine ⟨?_, ?_⟩
    · rw [hslot,
        backfill_views_of_not_mem _ _ _ _ (active_not_mem_dropLast hs)]
      exact removeDocAll_views_of_mem s.spaces s doc _ hnodup
        (mem_getLastD_of_MInv hs)
    · intro r hr
      have hrs : r ∈ s.spaces := (List.dropLast_sublist s.spaces).mem hr
      have ht1 : viewsOf (removeDocAll s s.spaces doc) r
          = ViewSpace.removeDocument (viewsOf s r) doc :=
        removeDocAll_views_of_mem s.spaces s doc r hnodup hrs
      have hbf := backfill_views_of_mem s.spaces.dropLast
        (removeDocAll s s.spaces doc)
        (ViewManager.paneDocOf s (ViewManager.activeViewSpace s)) r hndDL hr
      rw [ht1] at hbf
      rw [hslot]
      exact hbf

theorem C6_witness :
    ViewManager.paneDocOf (slotDocumentClosed c6state 20) 1
      = ViewManager.paneDocOf c6state (ViewManager.activeViewSpace c6state) :=
  (((C6_amended_doc_closed_backfill reach_c6state 20).2 (by decide)).2 1
    (by decide)).1 (by decide)

/-- C9 (counterexample): in `c9state` the active pane 1 is empty and pane 0
already shows document 2.  `setCurrentDocument(2, findOpenView=True)`
activates pane 0, but the formerly active pane 1's view stack is NOT left
unchanged: the closing backfill loop loads document 2 into it (a fresh
view, id 3). -/
theorem C9_counterexample :
    ViewManager.activeViewSpace c9state = 1 ∧
    viewsOf c9state 1 = [] ∧
    ViewManager.paneDocOf c9state 0 = some 2 ∧
    ViewManager.activeViewSpace (setCurrentDocument c9state 2 true) = 0 ∧
    viewsOf (setCurrentDocument c9state 2 true) 1 = [⟨3, 2⟩] :=
  ⟨rfl, rfl, rfl, rfl, rfl⟩

/-- C9 (amended): `setCurrentDocument(doc, findOpenView=True)` when the
active pane does not already show `doc`: if some non-active pane shows
`doc` (searched in reverse recency order) it becomes active, and the
formerly active pane keeps its view stack PROVIDED that stack is
non-empty; if no other pane shows `doc`, `doc` is loaded into the active
pane; afterwards every pane other than the new active one that is empty is
given `doc` — including, in the found-elsewhere case, a formerly active
empty pane. -/
theorem C9_amended_set_current_find_open_view {s : MState} (h : Reach s)
    (doc : Nat)
    (hact : some doc
      ≠ ViewManager.paneDocOf s (ViewManager.activeViewSpace s)) :
    (∀ q, (s.spaces.dropLast.reverse).find?
          (fun x => decide (ViewManager.paneDocOf s x = some doc)) = some q →
        ViewManager.activeViewSpace (setCurrentDocument s doc true) = q ∧
        (viewsOf s (ViewManager.activeViewSpace s) ≠ [] →
          viewsOf (setCurrentDocument s doc true)
              (ViewManager.activeViewSpace s)
            = viewsOf s (ViewManager.activeViewSpace s))) ∧
    ((s.spaces.dropLast.reverse).find?
          (fun x => decide (ViewManager.paneDocOf s x = some doc)) = none →
      viewsOf (setCurrentDocument s doc true) (ViewManager.activeViewSpace s)
        = ViewSpace.showDocument (viewsOf s (ViewManager.activeViewSpace s))
            (some doc) s.nextView) ∧
    (∀ r ∈ s.spaces,
      r ≠ ViewManager.activeViewSpace (setCurrentDocument s doc true) →
      viewsOf s r = [] →
      ViewManager.paneDocOf (setCurrentDocument s doc true) r
        = some doc) := by
  have hs := reach_MInv h
  have hnodup : s.spaces.Nodup := hs.perm.symm.nodup hs.nodup
  have hne : s.spaces ≠ [] := spaces_ne_nil_of_MInv hs
  cases hfind : (s.spaces.dropLast.reverse).find?
      (fun x => decide (ViewManager.paneDocOf s x = some doc)) with
  | some q =>
    have hqmem : q ∈ s.spaces.dropLast :=
      List.mem_reverse.mp (List.mem_of_find?_eq_some hfind)
    have hqa : q ≠ ViewManager.activeViewSpace s := by
      intro hEq
      exact active_not_mem_dropLast hs (hEq ▸ hqmem)
    have hqS : q ∈ s.spaces := (List.dropLast_sublist s.spaces).mem hqmem
    have hql : ¬ s.spaces.getLast? = some q := by
      intro hEq
      rw [List.getLast?_eq_getLast s.spaces hne, Option.some.injEq] at hEq
      exact hqa (hEq.symm.trans (activeViewSpace_eq_getLast hne).symm)
    have hSA : (ViewManager.setActiveViewSpace s q).spaces
        = s.spaces.erase q ++ [q] := by
      rw [ViewManager.setActiveViewSpace, if_neg hql]
    have hset : setCurrentDocument s doc true
        = backfillEmpty (ViewManager.setActiveViewSpace s q)
            (s.spaces.erase q) (some doc) := by
      simp only [setCurrentDocument]
      rw [if_neg hact, if_pos trivial]
      simp only [hfind]
      rw [hSA, List.dropLast_concat]
    have hbk := backfillEmpty_keeps (s.spaces.erase q)
      (ViewManager.setActiveViewSpace s q) (some doc)
    have hactive :
        ViewManager.activeViewSpace (setCurrentDocument s doc true) = q := by
      rw [hset, ViewManager.activeViewSpace, hbk.2.2.2.1, hSA]
      simp [List.getLastD_eq_getLast?, List.getLast?_concat]
    refine ⟨?_, ?_, ?_⟩
    · intro q' hf
      rw [Option.some.injEq] at hf
      subst hf
      refine ⟨hactive, ?_⟩
      intro hnemp
      rw [hset]
      have hamem : ViewManager.activeViewSpace s ∈ s.spaces.erase q :=
        (List.mem_erase_of_ne fun hEq => hqa hEq.symm).mpr
          (mem_getLastD_of_MInv hs)
      have hbf := backfill_views_of_mem (s.spaces.erase q)
        (ViewManager.setActiveViewSpace s q) (some doc)
        (ViewManager.activeViewSpace s) (hnodup.erase q) hamem
      rw [viewsOf_setActiveViewSpace] at hbf
      exact hbf.2 hnemp
    · intro hf
      simp at hf
    · intro r hrS hrne hremp
      rw [hactive] at hrne
      rw [hset]
      have hrmem : r ∈ s.spaces.erase q := (List.mem_erase_of_ne hrne).mpr hrS
      have hbf := backfill_views_of_mem (s.spaces.erase q)
        (ViewManager.setActiveViewSpace s q) (some doc) r
        (hnodup.erase q) hrmem
      rw [viewsOf_setActiveViewSpace] at hbf
      exact hbf.1 hremp
  | none =>
    have hset : setCurrentDocument s doc true
        = backfillEmpty
            { s with
              views := setViewsAux s.views (ViewManager.activeViewSpace s)
                (ViewSpace.showDocument
                  (viewsOf s (ViewManager.activeViewSpace s)) (some doc)
                  s.nextView)
              nextView := s.nextView + 1 }
            s.spaces.dropLast (some doc) := by
      simp only [setCurrentDocument]
      rw [if_neg hact, if_pos trivial]
      simp only [hfind]
    have hbk := backfillEmpty_keeps s.spaces.dropLast
      { s with
        views := setViewsAux s.views (ViewManager.activeViewSpace s)
          (ViewSpace.showDocument
            (viewsOf s (ViewManager.activeViewSpace s)) (some doc)
            s.nextView)
        nextView := s.nextView + 1 } (some doc)
    have hactive :
        ViewManager.activeViewSpace (setCurrentDocument s doc true)
          = ViewManager.activeViewSpace s := by
      rw [hset, ViewManager.activeViewSpace, hbk.2.2.2.1]
      rfl
    refine ⟨?_, ?_, ?_⟩
    · intro q' hf
      simp at hf
    · intro _
      rw [hset,
        backfill_views_of_not_mem _ _ _ _ (active_not_mem_dropLast hs),
        viewsOf_set_self]
    · intro r hrS hrne hremp
      rw [hactive] at hrne
      have hrd : r ∈ s.spaces.dropLast := by
        have hsp := List.dropLast_concat_getLast hne
        have hmem2 : r ∈ s.spaces.dropLast ++ [s.spaces.getLast hne] := by
          rw [hsp]
          exact hrS
        rcases List.mem_append.mp hmem2 with h1 | h1
        · exact h1
        · exact absurd ((List.mem_singleton.mp h1).trans
            (activeViewSpace_eq_getLast hne).symm) hrne
      rw [hset]
      have hbf := backfill_views_of_mem s.spaces.dropLast
        { s with
          views := setViewsAux s.views (ViewManager.activeViewSpace s)
            (ViewSpace.showDocument
              (viewsOf s (ViewManager.activeViewSpace s)) (some doc)
              s.nextView)
          nextView := s.nextView + 1 } (some doc) r
        ((List.dropLast_sublist s.spaces).nodup hnodup) hrd
      rw [viewsOf_set_ne _ _ _ _ r hrne] at hbf
      exact hbf.1 hremp

theorem C9_witness :
    ViewManager.activeViewSpace (setCurrentDocument c9state 2 true) = 0 :=
  ((C9_amended_set_current_find_open_view reach_c9state 2 (by decide)).1 0
    (by decide)).1

theorem not_shown_of_find_none {vs : List View} {d : Nat}
    (h1 : some d ≠ ViewSpace.document vs)
    (hf : vs.dropLast.find? (fun x => x.doc == d) = none) :
    ∀ v ∈ vs, v.doc ≠ d := by
  intro v hv hvd
  rcases List.eq_nil_or_concat' vs with rfl | ⟨l, x, rfl⟩
  · simp at hv
  · rw [List.dropLast_concat] at hf
    rcases List.mem_append.mp hv with h2 | h2
    · have h3 := List.find?_eq_none.mp hf v h2
      simp at h3
      exact h3 hvd
    · apply h1
      rw [List.mem_singleton] at h2
      subst h2
      rw [ViewSpace.document, List.getLast?_concat]
      simp [hvd]

/-- C8: per-pane `showDocument(doc)` is a no-op when `doc` is the active
(last) view's document; otherwise, when a non-active view of the pane
already shows `doc`, that view is removed and re-appended (reused and made
active, a permutation of the stack — no view created); only when no view
of the pane shows `doc` is a fresh view appended — and the documents of a
pane's stacked views stay pairwise distinct throughout. -/
theorem C8_show_document_per_pane_cache {vs : List View}
    (hnd : (vs.map View.doc).Nodup) (d : Nat) (f : Nat) :
    (some d = ViewSpace.document vs →
      ViewSpace.showDocument vs (some d) f = vs) ∧
    (some d ≠ ViewSpace.document vs →
      ∀ v, vs.dropLast.find? (fun x => x.doc == d) = some v →
        v ∈ vs ∧ v.doc = d ∧
        ViewSpace.showDocument vs (some d) f = vs.erase v ++ [v] ∧
        (ViewSpace.showDocument vs (some d) f).Perm vs ∧
        ViewSpace.document (ViewSpace.showDocument vs (some d) f)
          = some d) ∧
    ((∀ v ∈ vs, v.doc ≠ d) →
      ViewSpace.showDocument vs (some d) f = vs ++ [⟨f, d⟩]) ∧
    ((ViewSpace.showDocument vs (some d) f).map View.doc).Nodup := by
  refine ⟨?_, ?_, ?_, ?_⟩
  · intro h1
    rw [ViewSpace.showDocument, if_pos h1]
  · intro h1 v hf
    have hvdl : v ∈ vs.dropLast := List.mem_of_find?_eq_some hf
    have hv : v ∈ vs := (List.dropLast_sublist vs).mem hvdl
    have hvd : v.doc = d := by
      have h2 := List.find?_some hf
      simpa using h2
    have heq : ViewSpace.showDocument vs (some d) f = vs.erase v ++ [v] := by
      rw [ViewSpace.showDocument, if_neg h1]
      simp only [hf]
    have hperm : (ViewSpace.showDocument vs (some d) f).Perm vs := by
      rw [heq]
      exact (List.perm_append_singleton v (vs.erase v)).trans
        (List.perm_cons_erase hv).symm
    refine ⟨hv, hvd, heq, hperm, ?_⟩
    rw [heq, ViewSpace.document, List.getLast?_concat]
    simp [hvd]
  · intro hall
    have h1 : some d ≠ ViewSpace.document vs := by
      intro hEq
      rcases List.eq_nil_or_concat' vs with rfl | ⟨l, x, rfl⟩
      · simp [ViewSpace.document] at hEq
      · rw [ViewSpace.document, List.getLast?_concat] at hEq
        exact hall x (by simp) (by simpa using hEq.symm)
    have hf : vs.dropLast.find? (fun x => x.doc == d) = none := by
      apply List.find?_eq_none.mpr
      intro x hx
      have h2 := hall x ((List.dropLast_sublist vs).mem hx)
      simpa using h2
    rw [ViewSpace.showDocument, if_neg h1]
    simp only [hf]
  · by_cases h1 : some d = ViewSpace.document vs
    · rw [ViewSpace.showDocument, if_pos h1]
      exact hnd
    · cases hf : vs.dropLast.find? (fun x => x.doc == d) with
      | some v =>
        have hv : v ∈ vs :=
          (List.dropLast_sublist vs).mem (List.mem_of_find?_eq_some hf)
        have heq : ViewSpace.showDocument vs (some d) f
            = vs.erase v ++ [v] := by
          rw [ViewSpace.showDocument, if_neg h1]
          simp only [hf]
        have hperm : (ViewSpace.showDocument vs (some d) f).Perm vs := by
          rw [heq]
          exact (List.perm_append_singleton v (vs.erase v)).trans
            (List.perm_cons_erase hv).symm
        exact ((hperm.map View.doc).nodup_iff).mpr hnd
      | none =>
        have heq : ViewSpace.showDocument vs (some d) f
            = vs ++ [⟨f, d⟩] := by
          rw [ViewSpace.showDocument, if_neg h1]
          simp only [hf]
        rw [heq, List.map_append]
        have hd : d ∉ vs.map View.doc := by
          intro hm
          rcases List.mem_map.mp hm with ⟨v, hv, hvd⟩
          exact not_shown_of_find_none h1 hf v hv hvd
        simp [List.nodup_append, hnd, hd]

theorem C8_witness :
    (some 7 = ViewSpace.document [⟨0, 5⟩] →
      ViewSpace.showDocument [⟨0, 5⟩] (some 7) 1 = [⟨0, 5⟩]) ∧
    (some 7 ≠ ViewSpace.document [⟨0, 5⟩] →
      ∀ v, ([⟨0, 5⟩] : List View).dropLast.find? (fun x => x.doc == 7)
          = some v →
        v ∈ ([⟨0, 5⟩] : List View) ∧ v.doc = 7 ∧
        ViewSpace.showDocument [⟨0, 5⟩] (some 7) 1
          = ([⟨0, 5⟩] : List View).erase v ++ [v] ∧
        (ViewSpace.showDocument [⟨0, 5⟩] (some 7) 1).Perm [⟨0, 5⟩] ∧
        ViewSpace.document (ViewSpace.showDocument [⟨0, 5⟩] (some 7) 1)
          = some 7) ∧
    ((∀ v ∈ ([⟨0, 5⟩] : List View), v.doc ≠ 7) →
      ViewSpace.showDocument [⟨0, 5⟩] (some 7) 1 = [⟨0, 5⟩] ++ [⟨1, 7⟩]) ∧
    ((ViewSpace.showDocument [⟨0, 5⟩] (some 7) 1).map View.doc).Nodup :=
  C8_show_document_per_pane_cache (by decide) 7 1

theorem C7_witness :
    (initMState.spaces ≠ [] ∧ initMState.spaces.Nodup ∧
      initMState.spaces.Perm (panesOfList initMState.rootCs)) ∧
    (∀ p s', initMState.spaces.getLast? = some p →
      closeViewSpace initMState p = some s' →
      s'.spaces.getLast? = initMState.spaces.dropLast.getLast?) :=
  C7_one_active_pane Reach.init

theorem C10_witness :
    (ViewManager.canCloseViewSpace initMState = true ↔
      2 ≤ (panesOfList initMState.rootCs).length) ∧
    (∀ p o, (splitViewSpace initMState p o).closeEnabled
        = ViewManager.canCloseViewSpace (splitViewSpace initMState p o)) ∧
    (∀ p s', closeViewSpace initMState p = some s' →
      s'.closeEnabled = ViewManager.canCloseViewSpace s') :=
  C10_close_enabled Reach.init

mutual

theorem depthInNode_of_not_mem {p : Nat} : ∀ n : Node,
    p ∉ panesOf n → depthInNode p n = none
  | .pane q, h => by
    have hqp : ¬ q = p := fun hEq => h (by simp [panesOf, hEq])
    simp [depthInNode, hqp]
  | .split so cs szs, h => by
    rw [depthInNode, depthInList_of_not_mem cs (by simpa [panesOf] using h)]
    rfl

theorem depthInList_of_not_mem {p : Nat} : ∀ cs : List Node,
    p ∉ panesOfList cs → depthInList p cs = none
  | [], _ => rfl
  | c :: cs, h => by
    simp only [panesOfList, List.mem_append] at h
    push_neg at h
    simp only [depthInList, depthInNode_of_not_mem c h.1]
    exact depthInList_of_not_mem cs h.2

end

mutual

theorem parentIn_of_not_mem {p : Nat} : ∀ n : Node,
    p ∉ panesOf n → parentIn p n = none
  | .pane _, _ => rfl
  | .split so cs szs, h => by
    have h' : p ∉ panesOfList cs := by simpa [panesOf] using h
    have hany : cs.any (isPaneId p) = false := by
      rw [Bool.eq_false_iff]
      intro hc
      exact h' (mem_panes_of_pane_mem (any_isPaneId_iff.mp hc))
    simp only [parentIn, hany, Bool.false_eq_true, if_false]
    exact parentInList_of_not_mem cs h'

theorem parentInList_of_not_mem {p : Nat} : ∀ cs : List Node,
    p ∉ panesOfList cs → parentInList p cs = none
  | [], _ => rfl
  | c :: cs, h => by
    simp only [panesOfList, List.mem_append] at h
    push_neg at h
    simp only [parentInList, parentIn_of_not_mem c h.1]
    exact parentInList_of_not_mem cs h.2

end

mutual

theorem mem_of_parentIn_some {p : Nat} : ∀ (n : Node)
    (r : Orient × List Node × List Int),
    parentIn p n = some r → p ∈ panesOf n
  | .pane q, r, h => by simp [parentIn] at h
  | .split so cs szs, r, h => by
    simp only [parentIn] at h
    simp only [panesOf]
    by_cases hany : cs.any (isPaneId p) = true
    · exact mem_panes_of_pane_mem (any_isPaneId_iff.mp hany)
    · rw [if_neg hany] at h
      exact memList_of_parentInList_some cs r h

theorem memList_of_parentInList_some {p : Nat} : ∀ (cs : List Node)
    (r : Orient × List Node × List Int),
    parentInList p cs = some r → p ∈ panesOfList cs
  | [], r, h => by simp [parentInList] at h
  | c :: cs, r, h => by
    simp only [parentInList] at h
    simp only [panesOfList, List.mem_append]
    cases hc : parentIn p c with
    | some r2 => exact Or.inl (mem_of_parentIn_some c r2 hc)
    | none =>
      simp only [hc] at h
      exact Or.inr (memList_of_parentInList_some cs r h)

end

mutual

theorem panes_sub_of_parentIn {p : Nat} : ∀ (n : Node) (po : Orient)
    (pcs : List Node) (psz : List Int),
    parentIn p n = some (po, pcs, psz) →
    ∀ x : Nat, Node.pane x ∈ pcs → x ∈ panesOf n
  | .pane q, po, pcs, psz, h => by simp [parentIn] at h
  | .split so cs szs, po, pcs, psz, h => by
    simp only [parentIn] at h
    simp only [panesOf]
    intro x hx
    by_cases hany : cs.any (isPaneId p) = true
    · rw [if_pos hany] at h
      injection h with h
      simp only [Prod.mk.injEq] at h
      obtain ⟨-, rfl, -⟩ := h
      exact mem_panes_of_pane_mem hx
    · rw [if_neg hany] at h
      exact panesList_sub_of_parentInList cs po pcs psz h x hx

theorem panesList_sub_of_parentInList {p : Nat} : ∀ (cs : List Node)
    (po : Orient) (pcs : List Node) (psz : List Int),
    parentInList p cs = some (po, pcs, psz) →
    ∀ x : Nat, Node.pane x ∈ pcs → x ∈ panesOfList cs
  | [], _, _, _, h => by simp [parentInList] at h
  | c :: cs, po, pcs, psz, h => by
    intro x hx
    simp only [parentInList] at h
    simp only [panesOfList, List.mem_append]
    cases hc : parentIn p c with
    | some r =>
      simp only [hc, Option.some.injEq] at h
      subst h
      exact Or.inl (panes_sub_of_parentIn c po pcs psz hc x hx)
    | none =>
      simp only [hc] at h
      exact Or.inr (panesList_sub_of_parentInList cs po pcs psz h x hx)

end

theorem any_false_of_parentInList {p : Nat} : ∀ (cs : List Node) (po : Orient)
    (pcs : List Node) (psz : List Int), (panesOfList cs).Nodup →
    parentInList p cs = some (po, pcs, psz) →
    ∀ x : Nat, Node.pane x ∈ pcs → cs.any (isPaneId x) = false
  | [], _, _, _, _, h => by simp [parentInList] at h
  | c :: cs, po, pcs, psz, hnd, h => by
    intro x hx
    simp only [panesOfList] at hnd
    obtain ⟨nd1, nd2, disj⟩ := List.nodup_append.mp hnd
    simp only [parentInList] at h
    simp only [List.any_cons, Bool.or_eq_false_iff]
    cases hc : parentIn p c with
    | some r =>
      simp only [hc, Option.some.injEq] at h
      subst h
      have hxc : x ∈ panesOf c := panes_sub_of_parentIn c po pcs psz hc x hx
      refine ⟨?_, ?_⟩
      · cases c with
        | pane y => simp [parentIn] at hc
        | split so2 cs2 szs2 => rfl
      · rw [List.any_eq_false]
        intro a ha
        rw [Bool.not_eq_true]
        exact isPaneId_false_of_not_mem (fun hm => disj hxc hm) a ha
    | none =>
      simp only [hc] at h
      have hxl : x ∈ panesOfList cs :=
        panesList_sub_of_parentInList cs po pcs psz h x hx
      have hxc : x ∉ panesOf c := fun hm => disj hm hxl
      refine ⟨?_, ?_⟩
      · rw [Bool.eq_false_iff]
        intro hT
        have h2 := isPaneId_iff.mp hT
        subst h2
        exact hxc (by simp [panesOf])
      · exact any_false_of_parentInList cs po pcs psz nd2 h x hx

theorem isPaneId_splitNode {x p newId : Nat} {o : Orient} (c : Node) :
    isPaneId x (splitNode p newId o c) = isPaneId x c := by
  cases c with
  | pane q => rfl
  | split so cs szs =>
    simp only [splitNode]
    split <;> rfl

theorem any_isPaneId_splitNodeList {x p newId : Nat} {o : Orient} :
    ∀ cs : List Node,
    (splitNodeList p newId o cs).any (isPaneId x) = cs.any (isPaneId x)
  | [] => rfl
  | c :: cs => by
    simp only [splitNodeList, List.any_cons, isPaneId_splitNode,
      any_isPaneId_splitNodeList cs]

theorem depthInList_insert_skip {q newId : Nat} (hq : q ≠ newId) :
    ∀ (A : List Node) (c : Node) (B : List Node),
    depthInList q (A ++ c :: Node.pane newId :: B)
      = depthInList q (A ++ c :: B)
  | [], c, B => by
    have hn : depthInNode q (Node.pane newId) = none := by
      have h2 : ¬ newId = q := fun hEq => hq hEq.symm
      simp [depthInNode, h2]
    simp only [List.nil_append, depthInList, hn]
  | a :: A, c, B => by
    simp only [List.cons_append, depthInList]
    cases hd : depthInNode q a with
    | some d => simp only [hd]
    | none =>
      simp only [hd]
      exact depthInList_insert_skip hq A c B

theorem depthInList_self {p : Nat} : ∀ (A B : List Node),
    p ∉ panesOfList A → depthInList p (A ++ Node.pane p :: B) = some 0
  | [], B, _ => by simp [depthInList, depthInNode]
  | a :: A, B, h => by
    simp only [panesOfList, List.mem_append] at h
    push_neg at h
    simp only [List.cons_append, depthInList, depthInNode_of_not_mem a h.1]
    exact depthInList_self A B h.2

theorem depthInList_newsplit_skip {q p newId : Nat} {o : Orient}
    (hqp : q ≠ p) (hqn : q ≠ newId) :
    ∀ (A B : List Node),
    depthInList q (A ++ (Node.split o [Node.pane p, Node.pane newId]
        [defaultSize.fdiv 2, defaultSize.fdiv 2]) :: B)
      = depthInList q (A ++ Node.pane p :: B)
  | [], B => by
    have h1 : depthInNode q (Node.split o [Node.pane p, Node.pane newId]
        [defaultSize.fdiv 2, defaultSize.fdiv 2]) = none := by
      apply depthInNode_of_not_mem
      intro hm
      simp [panesOf, panesOfList] at hm
      rcases hm with rfl | rfl
      · exact hqp rfl
      · exact hqn rfl
    have h2 : depthInNode q (Node.pane p) = none := by
      have h3 : ¬ p = q := fun hEq => hqp hEq.symm
      simp [depthInNode, h3]
    simp only [List.nil_append, depthInList, h1, h2]
  | a :: A, B => by
    simp only [List.cons_append, depthInList]
    cases hd : depthInNode q a with
    | some d => simp only [hd]
    | none =>
      simp only [hd]
      exact depthInList_newsplit_skip hqp hqn A B

theorem depthInList_newsplit_self {p newId : Nat} {o : Orient} :
    ∀ (A B : List Node), p ∉ panesOfList A →
    depthInList p (A ++ (Node.split o [Node.pane p, Node.pane newId]
        [defaultSize.fdiv 2, defaultSize.fdiv 2]) :: B) = some 1
  | [], B, _ => by simp [depthInList, depthInNode]
  | a :: A, B, h => by
    simp only [panesOfList, List.mem_append] at h
    push_neg at h
    simp only [List.cons_append, depthInList, depthInNode_of_not_mem a h.1]
    exact depthInList_newsplit_self A B h.2

theorem depthInList_newsplit_new {p newId : Nat} {o : Orient}
    (hpn : p ≠ newId) : ∀ (A B : List Node), newId ∉ panesOfList A →
    depthInList newId (A ++ (Node.split o [Node.pane p, Node.pane newId]
        [defaultSize.fdiv 2, defaultSize.fdiv 2]) :: B) = some 1
  | [], B, _ => by
    have h2 : ¬ p = newId := hpn
    simp [depthInList, depthInNode, h2]
  | a :: A, B, h => by
    simp only [panesOfList, List.mem_append] at h
    push_neg at h
    simp only [List.cons_append, depthInList, depthInNode_of_not_mem a h.1]
    exact depthInList_newsplit_new hpn A B h.2

theorem parentInList_newsplit_self {p newId : Nat} {o : Orient} :
    ∀ (A B : List Node), p ∉ panesOfList A →
    parentInList p (A ++ (Node.split o [Node.pane p, Node.pane newId]
        [defaultSize.fdiv 2, defaultSize.fdiv 2]) :: B)
      = some (o, [Node.pane p, Node.pane newId],
          [defaultSize.fdiv 2, defaultSize.fdiv 2])
  | [], B, _ => by simp [parentInList, parentIn, isPaneId]
  | a :: A, B, h => by
    simp only [panesOfList, List.mem_append] at h
    push_neg at h
    simp only [List.cons_append, parentInList, parentIn_of_not_mem a h.1]
    exact parentInList_newsplit_self A B h.2

theorem parentInList_newsplit_new {p newId : Nat} {o : Orient} :
    ∀ (A B : List Node), newId ∉ panesOfList A →
    parentInList newId (A ++ (Node.split o [Node.pane p, Node.pane newId]
        [defaultSize.fdiv 2, defaultSize.fdiv 2]) :: B)
      = some (o, [Node.pane p, Node.pane newId],
          [defaultSize.fdiv 2, defaultSize.fdiv 2])
  | [], B, _ => by simp [parentInList, parentIn, isPaneId]
  | a :: A, B, h => by
    simp only [panesOfList, List.mem_append] at h
    push_neg at h
    simp only [List.cons_append, parentInList, parentIn_of_not_mem a h.1]
    exact parentInList_newsplit_new A B h.2

mutual

/-- How one `splitViewSpace` placement step changes pane parents and pane
nesting depths below a subtree, stated for the splitter holding `p`
(`2 ≤` children): same orientation inserts the new pane right after `p`
with a fresh size entry and changes no depth; a different orientation
wraps `p` and the new pane in a fresh evenly-split splitter put at `p`'s
old index (the enclosing splitter's sizes list untouched), deepening
exactly the panes `p` and `newId` by one. -/
theorem split_ctx_node {p newId : Nat} {o : Orient} : ∀ (n : Node),
    (panesOf n).Nodup → newId ∉ panesOf n → p ≠ newId →
    ∀ (po : Orient) (pcs : List Node) (psz : List Int),
    parentIn p n = some (po, pcs, psz) → 2 ≤ pcs.length →
    ((po = o →
      parentIn p (splitNode p newId o n)
        = some (po,
            pcs.insertIdx (pcs.findIdx (isPaneId p) + 1) (Node.pane newId),
            psz.insertIdx (pcs.findIdx (isPaneId p) + 1) defaultSize) ∧
      (∀ q, q ≠ newId →
        depthInNode q (splitNode p newId o n) = depthInNode q n) ∧
      depthInNode newId (splitNode p newId o n) = depthInNode p n) ∧
    (po ≠ o →
      parentIn p (splitNode p newId o n)
        = some (o, [Node.pane p, Node.pane newId],
            [defaultSize.fdiv 2, defaultSize.fdiv 2]) ∧
      parentIn newId (splitNode p newId o n)
        = some (o, [Node.pane p, Node.pane newId],
            [defaultSize.fdiv 2, defaultSize.fdiv 2]) ∧
      (∀ q, q ≠ p → q ≠ newId →
        depthInNode q (splitNode p newId o n) = depthInNode q n) ∧
      depthInNode p (splitNode p newId o n)
        = (depthInNode p n).map (fun d => d + 1) ∧
      depthInNode newId (splitNode p newId o n)
        = (depthInNode p n).map (fun d => d + 1) ∧
      (∀ q, q ≠ p → pcs.any (isPaneId q) = true →
        parentIn q (splitNode p newId o n)
          = some (po, pcs.set (pcs.findIdx (isPaneId p))
              (Node.split o [Node.pane p, Node.pane newId]
                [defaultSize.fdiv 2, defaultSize.fdiv 2]), psz))))
  | .pane q, _, _, _, po, pcs, psz, hpar, _ => by simp [parentIn] at hpar
  | .split so cs szs, hnd, hfresh, hpn, po, pcs, psz, hpar, hlen => by
    simp only [panesOf] at hnd hfresh
    simp only [parentIn] at hpar
    by_cases hany : cs.any (isPaneId p) = true
    · rw [if_pos hany] at hpar
      injection hpar with hpar
      simp only [Prod.mk.injEq] at hpar
      obtain ⟨rfl, rfl, rfl⟩ := hpar
      obtain ⟨A, c, B, hdec, hcP, hAf, hidx⟩ := any_decomp hany
      have hcpane : c = Node.pane p := isPaneId_iff.mp hcP
      subst hcpane
      subst hdec
      have hpanes : panesOfList (A ++ Node.pane p :: B)
          = panesOfList A ++ p :: panesOfList B := by
        rw [panesOfList_append]
        rfl
      rw [hpanes] at hnd hfresh
      obtain ⟨ndA, ndPB, disj⟩ := List.nodup_append.mp hnd
      have hpA : p ∉ panesOfList A := fun hm => disj hm (by simp)
      have hpB : p ∉ panesOfList B := (List.nodup_cons.mp ndPB).1
      simp only [List.mem_append, List.mem_cons] at hfresh
      push_neg at hfresh
      have hlen1 : ¬ (A ++ Node.pane p :: B).length = 1 := by
        intro hL
        rw [hL] at hlen
        omega
      by_cases hso : so = o
      · subst hso
        have hsplit : splitNode p newId so
            (Node.split so (A ++ Node.pane p :: B) szs)
            = Node.split so (A ++ Node.pane p :: Node.pane newId :: B)
                (szs.insertIdx (A.length + 1) defaultSize) := by
          simp only [splitNode, hany, if_true, splitInChildren]
          rw [if_neg hlen1, hidx, insertIdx_append_cons]
        refine ⟨fun _ => ?_, fun hpo => absurd rfl hpo⟩
        refine ⟨?_, ?_, ?_⟩
        · have hmemP : Node.pane p
              ∈ A ++ Node.pane p :: Node.pane newId :: B := by simp
          have hanyT := any_isPaneId_iff.mpr hmemP
          rw [hsplit]
          simp only [parentIn, hanyT, if_true]
          rw [hidx, insertIdx_append_cons]
        · intro q hq
          rw [hsplit]
          simp only [depthInNode]
          rw [depthInList_insert_skip hq A (Node.pane p) B]
        · rw [hsplit]
          simp only [depthInNode]
          have hassoc : A ++ Node.pane p :: Node.pane newId :: B
              = (A ++ [Node.pane p]) ++ Node.pane newId :: B := by simp
          have hnew2 : newId ∉ panesOfList (A ++ [Node.pane p]) := by
            rw [panesOfList_append]
            simp only [List.mem_append]
            push_neg
            refine ⟨hfresh.1, ?_⟩
            simp only [panesOfList, panesOf, List.append_nil,
              List.mem_singleton]
            exact hfresh.2.1
          rw [hassoc, depthInList_self (A ++ [Node.pane p]) B hnew2,
            depthInList_self A B hpA]
      · have hsplit : splitNode p newId o
            (Node.split so (A ++ Node.pane p :: B) szs)
            = Node.split so (A ++ (Node.split o [Node.pane p, Node.pane newId]
                [defaultSize.fdiv 2, defaultSize.fdiv 2]) :: B) szs := by
          simp only [splitNode, hany, if_true, splitInChildren]
          rw [if_neg hlen1, if_neg hso, hidx, set_append_cons]
        refine ⟨fun hpo => absurd hpo hso, fun _ => ?_⟩
        have hanyFp : (A ++ (Node.split o [Node.pane p, Node.pane newId]
            [defaultSize.fdiv 2, defaultSize.fdiv 2]) :: B).any
            (isPaneId p) = false := by
          rw [List.any_eq_false]
          intro a ha
          rw [Bool.not_eq_true]
          rcases List.mem_append.mp ha with ha | ha
          · exact hAf a ha
          · rcases List.mem_cons.mp ha with rfl | ha
            · rfl
            · exact isPaneId_false_of_not_mem hpB a ha
        have hanyFn : (A ++ (Node.split o [Node.pane p, Node.pane newId]
            [defaultSize.fdiv 2, defaultSize.fdiv 2]) :: B).any
            (isPaneId newId) = false := by
          rw [List.any_eq_false]
          intro a ha
          rw [Bool.not_eq_true]
          rcases List.mem_append.mp ha with ha | ha
          · exact isPaneId_false_of_not_mem hfresh.1 a ha
          · rcases List.mem_cons.mp ha with rfl | ha
            · rfl
            · exact isPaneId_false_of_not_mem hfresh.2.2 a ha
        refine ⟨?_, ?_, ?_, ?_, ?_, ?_⟩
        · rw [hsplit]
          simp only [parentIn, hanyFp, Bool.false_eq_true, if_false]
          exact parentInList_newsplit_self A B hpA
        · rw [hsplit]
          simp only [parentIn, hanyFn, Bool.false_eq_true, if_false]
          exact parentInList_newsplit_new A B hfresh.1
        · intro q h1 h2
          rw [hsplit]
          simp only [depthInNode]
          rw [depthInList_newsplit_skip h1 h2 A B]
        · rw [hsplit]
          simp only [depthInNode]
          rw [depthInList_newsplit_self A B hpA, depthInList_self A B hpA]
          rfl
        · rw [hsplit]
          simp only [depthInNode]
          rw [depthInList_newsplit_new hpn A B hfresh.1,
            depthInList_self A B hpA]
          rfl
        · intro q hqp hqany
          have hqmem : Node.pane q ∈ A ++ Node.pane p :: B :=
            any_isPaneId_iff.mp hqany
          have hqmem2 : Node.pane q
              ∈ A ++ (Node.split o [Node.pane p, Node.pane newId]
                [defaultSize.fdiv 2, defaultSize.fdiv 2]) :: B := by
            rcases List.mem_append.mp hqmem with h1 | h1
            · exact List.mem_append.mpr (Or.inl h1)
            · rcases List.mem_cons.mp h1 with h2 | h2
              · exact absurd (Node.pane.inj h2) hqp
              · exact List.mem_append.mpr (Or.inr (List.mem_cons_of_mem _ h2))
          rw [hsplit]
          have hanyT := any_isPaneId_iff.mpr hqmem2
          simp only [parentIn, hanyT, if_true]
          rw [hidx, set_append_cons]
    · rw [if_neg hany] at hpar
      have hanyF : cs.any (isPaneId p) = false := eq_false_of_ne_true hany
      have hsplit3 : splitNode p newId o (Node.split so cs szs)
          = Node.split so (splitNodeList p newId o cs) szs := by
        simp only [splitNode, hanyF, Bool.false_eq_true, if_false]
      have hanyS : (splitNodeList p newId o cs).any (isPaneId p) = false := by
        rw [any_isPaneId_splitNodeList]
        exact hanyF
      have hanyN : (splitNodeList p newId o cs).any (isPaneId newId)
          = false := by
        rw [any_isPaneId_splitNodeList]
        rw [List.any_eq_false]
        intro a ha
        rw [Bool.not_eq_true]
        exact isPaneId_false_of_not_mem hfresh a ha
      obtain ⟨ih1, ih2⟩ := split_ctx_list cs hnd hfresh hpn po pcs psz hpar hlen
      refine ⟨fun hpo => ?_, fun hpo => ?_⟩
      · obtain ⟨a1, a2, a3⟩ := ih1 hpo
        refine ⟨?_, ?_, ?_⟩
        · rw [hsplit3]
          simp only [parentIn, hanyS, Bool.false_eq_true, if_false]
          exact a1
        · intro q hq
          rw [hsplit3]
          simp only [depthInNode]
          rw [a2 q hq]
        · rw [hsplit3]
          simp only [depthInNode]
          rw [a3]
      · obtain ⟨b1, b2, b3, b4, b5, b6⟩ := ih2 hpo
        refine ⟨?_, ?_, ?_, ?_, ?_, ?_⟩
        · rw [hsplit3]
          simp only [parentIn, hanyS, Bool.false_eq_true, if_false]
          exact b1
        · rw [hsplit3]
          simp only [parentIn, hanyN, Bool.false_eq_true, if_false]
          exact b2
        · intro q h1 h2
          rw [hsplit3]
          simp only [depthInNode]
          rw [b3 q h1 h2]
        · rw [hsplit3]
          simp only [depthInNode]
          rw [b4]
        · rw [hsplit3]
          simp only [depthInNode]
          rw [b5]
        · intro q h1 h2
          have hanyq : cs.any (isPaneId q) = false :=
            any_false_of_parentInList cs po pcs psz hnd hpar q
              (any_isPaneId_iff.mp h2)
          have hanyq' : (splitNodeList p newId o cs).any (isPaneId q)
              = false := by
            rw [any_isPaneId_splitNodeList]
            exact hanyq
          rw [hsplit3]
          simp only [parentIn, hanyq', Bool.false_eq_true, if_false]
          exact b6 q h1 h2

theorem split_ctx_list {p newId : Nat} {o : Orient} : ∀ (cs : List Node),
    (panesOfList cs).Nodup → newId ∉ panesOfList cs → p ≠ newId →
    ∀ (po : Orient) (pcs : List Node) (psz : List Int),
    parentInList p cs = some (po, pcs, psz) → 2 ≤ pcs.length →
    ((po = o →
      parentInList p (splitNodeList p newId o cs)
        = some (po,
            pcs.insertIdx (pcs.findIdx (isPaneId p) + 1) (Node.pane newId),
            psz.insertIdx (pcs.findIdx (isPaneId p) + 1) defaultSize) ∧
      (∀ q, q ≠ newId →
        depthInList q (splitNodeList p newId o cs) = depthInList q cs) ∧
      depthInList newId (splitNodeList p newId o cs) = depthInList p cs) ∧
    (po ≠ o →
      parentInList p (splitNodeList p newId o cs)
        = some (o, [Node.pane p, Node.pane newId],
            [defaultSize.fdiv 2, defaultSize.fdiv 2]) ∧
      parentInList newId (splitNodeList p newId o cs)
        = some (o, [Node.pane p, Node.pane newId],
            [defaultSize.fdiv 2, defaultSize.fdiv 2]) ∧
      (∀ q, q ≠ p → q ≠ newId →
        depthInList q (splitNodeList p newId o cs) = depthInList q cs) ∧
      depthInList p (splitNodeList p newId o cs)
        = (depthInList p cs).map (fun d => d + 1) ∧
      depthInList newId (splitNodeList p newId o cs)
        = (depthInList p cs).map (fun d => d + 1) ∧
      (∀ q, q ≠ p → pcs.any (isPaneId q) = true →
        parentInList q (splitNodeList p newId o cs)
          = some (po, pcs.set (pcs.findIdx (isPaneId p))
              (Node.split o [Node.pane p, Node.pane newId]
                [defaultSize.fdiv 2, defaultSize.fdiv 2]), psz))))
  | [], _, _, _, po, pcs, psz, hpar, _ => by simp [parentInList] at hpar
  | c :: cs, hnd, hfresh, hpn, po, pcs, psz, hpar, hlen => by
    simp only [panesOfList] at hnd hfresh
    obtain ⟨nd1, nd2, disj⟩ := List.nodup_append.mp hnd
    simp only [List.mem_append] at hfresh
    push_neg at hfresh
    simp only [parentInList] at hpar
    cases hc : parentIn p c with
    | some r =>
      simp only [hc, Option.some.injEq] at hpar
      subst hpar
      have hpc : p ∈ panesOf c := mem_of_parentIn_some c _ hc
      have hprest : p ∉ panesOfList cs := fun hm => disj hpc hm
      have hrest : splitNodeList p newId o cs = cs :=
        splitNodeList_of_not_mem cs hprest
      have hlist : splitNodeList p newId o (c :: cs)
          = splitNode p newId o c :: cs := by
        simp only [splitNodeList, hrest]
      obtain ⟨ih1, ih2⟩ := split_ctx_node c nd1 hfresh.1 hpn po pcs psz hc hlen
      refine ⟨fun hpo => ?_, fun hpo => ?_⟩
      · obtain ⟨a1, a2, a3⟩ := ih1 hpo
        refine ⟨?_, ?_, ?_⟩
        · rw [hlist]
          simp only [parentInList, a1]
        · intro q hq
          rw [hlist]
          simp only [depthInList, a2 q hq]
        · rw [hlist]
          simp only [depthInList, a3]
          cases hd : depthInNode p c with
          | some d => simp [hd]
          | none =>
            simp only [hd]
            rw [depthInList_of_not_mem cs hprest,
              depthInList_of_not_mem cs hfresh.2]
      · obtain ⟨b1, b2, b3, b4, b5, b6⟩ := ih2 hpo
        refine ⟨?_, ?_, ?_, ?_, ?_, ?_⟩
        · rw [hlist]
          simp only [parentInList, b1]
        · rw [hlist]
          simp only [parentInList, b2]
        · intro q h1 h2
          rw [hlist]
          simp only [depthInList, b3 q h1 h2]
        · rw [hlist]
          simp only [depthInList, b4]
          cases hd : depthInNode p c with
          | some d => simp [hd]
          | none =>
            simp [hd, depthInList_of_not_mem cs hprest]
        · rw [hlist]
          simp only [depthInList, b5]
          cases hd : depthInNode p c with
          | some d => simp [hd]
          | none =>
            simp [hd, depthInList_of_not_mem cs hprest,
              depthInList_of_not_mem cs hfresh.2]
        · intro q h1 h2
          rw [hlist]
          simp only [parentInList, b6 q h1 h2]
    | none =>
      simp only [hc] at hpar
      have hpl : p ∈ panesOfList cs := memList_of_parentInList_some cs _ hpar
      have hpc : p ∉ panesOf c := fun hm => disj hm hpl
      have hchead : splitNode p newId o c = c := splitNode_of_not_mem c hpc
      have hlist : splitNodeList p newId o (c :: cs)
          = c :: splitNodeList p newId o cs := by
        simp only [splitNodeList, hchead]
      obtain ⟨ih1, ih2⟩ := split_ctx_list cs nd2 hfresh.2 hpn po pcs psz
        hpar hlen
      refine ⟨fun hpo => ?_, fun hpo => ?_⟩
      · obtain ⟨a1, a2, a3⟩ := ih1 hpo
        refine ⟨?_, ?_, ?_⟩
        · rw [hlist]
          simp only [parentInList, hc, a1]
        · intro q hq
          rw [hlist]
          simp only [depthInList, a2 q hq]
        · rw [hlist]
          simp only [depthInList,
            depthInNode_of_not_mem c hfresh.1,
            depthInNode_of_not_mem c hpc, a3]
      · obtain ⟨b1, b2, b3, b4, b5, b6⟩ := ih2 hpo
        refine ⟨?_, ?_, ?_, ?_, ?_, ?_⟩
        · rw [hlist]
          simp only [parentInList, hc, b1]
        · rw [hlist]
          simp only [parentInList, parentIn_of_not_mem c hfresh.1, b2]
        · intro q h1 h2
          rw [hlist]
          simp only [depthInList, b3 q h1 h2]
        · rw [hlist]
          simp [depthInList, depthInNode_of_not_mem c hpc, b4]
        · rw [hlist]
          simp [depthInList, depthInNode_of_not_mem c hfresh.1,
            depthInNode_of_not_mem c hpc, b5]
        · intro q h1 h2
          have hql : q ∈ panesOfList cs :=
            panesList_sub_of_parentInList cs po pcs psz hpar q
              (any_isPaneId_iff.mp h2)
          have hqc : q ∉ panesOf c := fun hm => disj hm hql
          rw [hlist]
          simp only [parentInList, parentIn_of_not_mem c hqc, b6 q h1 h2]

end

theorem parentOf_as_parentIn (s : MState) (p : Nat) :
    parentOf s p = parentIn p (Node.split s.rootO s.rootCs s.rootSz) := rfl

theorem depthOf_as_depthInNode (s : MState) (q : Nat) :
    depthInNode q (Node.split s.rootO s.rootCs s.rootSz)
      = (depthOf s q).map (fun d => d + 1) := rfl

theorem splitNode_root (s : MState) (p : Nat) (o : Orient) :
    splitNode p s.nextPane o (Node.split s.rootO s.rootCs s.rootSz)
      = Node.split (splitViewSpace s p o).rootO (splitViewSpace s p o).rootCs
          (splitViewSpace s p o).rootSz := by
  by_cases hany : s.rootCs.any (isPaneId p) = true
  · simp only [splitNode, splitViewSpace, hany, if_true]
  · simp only [splitNode, splitViewSpace, hany, Bool.false_eq_true, if_false]

theorem depth_map_inj {a b : Option Nat}
    (h : a.map (fun d => d + 1) = b.map (fun d => d + 1)) : a = b := by
  cases a with
  | none =>
    cases b with
    | none => rfl
    | some d => simp at h
  | some d =>
    cases b with
    | none => simp at h
    | some d2 =>
      simp only [Option.map_some', Option.some.injEq] at h
      have h2 : d = d2 := by omega
      rw [h2]

/-- C3: for a pane `p` whose parent splitter (possibly the root) has at
least two children, `splitViewSpace(p, O)` with `O` the parent's
orientation inserts the new pane (id `nextPane`, with a fresh size entry)
immediately after `p` among the parent's children and leaves every pane's
nesting depth unchanged (the new pane gets `p`'s depth); with `O` the other
orientation it wraps `p` and the new pane in a fresh splitter of
orientation `O` with an even size split, placed at `p`'s old index in the
parent whose sizes array is preserved, so `p`'s (and the new pane's) depth
is exactly one more than `p`'s old depth while every other pane's depth is
unchanged. -/
theorem C3_split_placement {s : MState} (h : Reach s) {p : Nat}
    (hp : p ∈ s.spaces) {po : Orient} {pcs : List Node} {psz : List Int}
    (hpar : parentOf s p = some (po, pcs, psz)) (hlen : 2 ≤ pcs.length)
    (o : Orient) :
    (po = o →
      parentOf (splitViewSpace s p o) p
        = some (po,
            pcs.insertIdx (pcs.findIdx (isPaneId p) + 1)
              (Node.pane s.nextPane),
            psz.insertIdx (pcs.findIdx (isPaneId p) + 1) defaultSize) ∧
      (∀ q, q ≠ s.nextPane →
        depthOf (splitViewSpace s p o) q = depthOf s q) ∧
      depthOf (splitViewSpace s p o) s.nextPane = depthOf s p) ∧
    (po ≠ o →
      parentOf (splitViewSpace s p o) p
        = some (o, [Node.pane p, Node.pane s.nextPane],
            [defaultSize.fdiv 2, defaultSize.fdiv 2]) ∧
      parentOf (splitViewSpace s p o) s.nextPane
        = some (o, [Node.pane p, Node.pane s.nextPane],
            [defaultSize.fdiv 2, defaultSize.fdiv 2]) ∧
      (∀ q, q ≠ p → q ≠ s.nextPane →
        depthOf (splitViewSpace s p o) q = depthOf s q) ∧
      depthOf (splitViewSpace s p o) p
        = (depthOf s p).map (fun d => d + 1) ∧
      depthOf (splitViewSpace s p o) s.nextPane
        = (depthOf s p).map (fun d => d + 1) ∧
      (∀ q, q ≠ p → pcs.any (isPaneId q) = true →
        parentOf (splitViewSpace s p o) q
          = some (po, pcs.set (pcs.findIdx (isPaneId p))
              (Node.split o [Node.pane p, Node.pane s.nextPane]
                [defaultSize.fdiv 2, defaultSize.fdiv 2]), psz))) := by
  have hs := reach_MInv h
  have hnd : (panesOf (Node.split s.rootO s.rootCs s.rootSz)).Nodup := by
    simpa [panesOf] using hs.nodup
  have hfresh : s.nextPane ∉ panesOf (Node.split s.rootO s.rootCs s.rootSz) := by
    simp only [panesOf]
    intro hm
    exact absurd (hs.fresh _ hm) (lt_irrefl _)
  have hpn : p ≠ s.nextPane := by
    intro hEq
    have h2 := hs.fresh p (hs.perm.mem_iff.mp hp)
    omega
  have hparN : parentIn p (Node.split s.rootO s.rootCs s.rootSz)
      = some (po, pcs, psz) := hpar
  obtain ⟨m1, m2⟩ := split_ctx_node (Node.split s.rootO s.rootCs s.rootSz)
    hnd hfresh hpn po pcs psz hparN hlen
  rw [splitNode_root s p o] at m1 m2
  refine ⟨fun hpo => ?_, fun hpo => ?_⟩
  · obtain ⟨a1, a2, a3⟩ := m1 hpo
    refine ⟨?_, ?_, ?_⟩
    · rw [parentOf_as_parentIn]
      exact a1
    · intro q hq
      have h2 := a2 q hq
      rw [depthOf_as_depthInNode, depthOf_as_depthInNode] at h2
      exact depth_map_inj h2
    · have h2 := a3
      rw [depthOf_as_depthInNode, depthOf_as_depthInNode] at h2
      exact depth_map_inj h2
  · obtain ⟨b1, b2, b3, b4, b5, b6⟩ := m2 hpo
    refine ⟨?_, ?_, ?_, ?_, ?_, ?_⟩
    · rw [parentOf_as_parentIn]
      exact b1
    · rw [parentOf_as_parentIn]
      exact b2
    · intro q h1 h2
      have h3 := b3 q h1 h2
      rw [depthOf_as_depthInNode, depthOf_as_depthInNode] at h3
      exact depth_map_inj h3
    · have h3 := b4
      rw [depthOf_as_depthInNode, depthOf_as_depthInNode] at h3
      exact depth_map_inj h3
    · have h3 := b5
      rw [depthOf_as_depthInNode, depthOf_as_depthInNode] at h3
      exact depth_map_inj h3
    · intro q h1 h2
      rw [parentOf_as_parentIn]
      exact b6 q h1 h2

theorem C3_witness :
    parentOf (splitViewSpace (splitViewSpace
        (setCurrentDocument initMState 5 false) 0 Orient.vertical) 0
        Orient.vertical) 0
      = some (Orient.vertical,
          ([Node.pane 0, Node.pane 1]).insertIdx
            (([Node.pane 0, Node.pane 1]).findIdx (isPaneId 0) + 1)
            (Node.pane (splitViewSpace (setCurrentDocument initMState 5 false)
              0 Orient.vertical).nextPane),
          ([defaultSize.fdiv 2, defaultSize.fdiv 2]).insertIdx
            (([Node.pane 0, Node.pane 1]).findIdx (isPaneId 0) + 1)
            defaultSize) :=
  ((C3_split_placement
      (Reach.split _ 0 Orient.vertical
        (Reach.setCurrent _ 5 false Reach.init) (by decide))
      (by decide)
      (show parentOf (splitViewSpace (setCurrentDocument initMState 5 false) 0
          Orient.vertical) 0
        = some (Orient.vertical, [Node.pane 0, Node.pane 1],
            [defaultSize.fdiv 2, defaultSize.fdiv 2]) from rfl)
      (by decide) Orient.vertical).1 rfl).1
